import Mathlib

set_option linter.unusedSectionVars false
set_option linter.unusedVariables false

/-!
# Verification of the zero-knowledge proof library against its specification

This file shallowly embeds the Rust sources of the `protocols` crate
(multilinear polynomials, sum-check, GKR helpers, FFT, FRI, Merkle tree, KZG)
as executable Lean definitions and proves or refutes the specification claims
about them.

Modelling conventions:
* Field elements are a generic `F` with `[Field F]`; concrete witnesses use
  `ZMod p`.
* Bytes are `Nat` values, byte strings are `List Nat`.
* The external capabilities (the Keccak transcript hash, the SHA-256 Merkle
  hash, the byte encodings of field elements, the canonical integer
  representative used by `Display`/`into_bigint`, and `get_root_of_unity`)
  are collected in an `Env F` record over which all theorems quantify; the
  code under verification never inspects these functions, it only applies
  them, so every theorem proved for all `Env F` holds in particular for the
  concrete instantiation used by the Rust crate.
* Rust `Vec<T>` becomes `List T`; out-of-bounds indexing (a Rust panic) is
  modelled by `List.getD` under hypotheses that keep every access in bounds,
  and by `Option` results where a claim is about the abort behaviour itself.
-/

namespace ZK

/-- External capabilities of the Rust crate: hash functions, byte encodings
and root-of-unity access.  `thash` is the Keccak-256 used by `Transcript`,
`mhash` the SHA-256 used by `MerkleTree`; `fromBytes` is
`F::from_be_bytes_mod_order`, `toBytes` is `into_bigint().to_bytes_be()`,
`intRepr` the canonical integer representative in `[0, q)` (used by
`to_string` and `into_bigint().as_ref()[0]` reductions), `toDecimal` the
UTF-8 bytes of `to_string()` (the decimal string of the representative,
used as the FRI Merkle leaf encoding), and `rou n` is
`F::get_root_of_unity(n)`. -/
structure Env (F : Type) where
  thash : List Nat → List Nat
  mhash : List Nat → List Nat
  fromBytes : List Nat → F
  toBytes : F → List Nat
  toDecimal : F → List Nat
  intRepr : F → Nat
  rou : Nat → F

/-- Modelled from the spec: `src/protocols/src/transcript.rs` is absent from
the sources (only its callers are); §4.1 of the spec defines the Transcript
as an incremental hash state with append-only `absorb`, and `squeeze`
returning `H(state)` and then absorbing that digest.  The state is the list
of all absorbed bytes. -/
structure Transcript where
  data : List Nat

/-- Modelled from the spec: `Transcript::new()`. -/
def Transcript.new : Transcript := ⟨[]⟩

/-- Modelled from the spec: `Transcript::absorb` appends bytes to the hash
state. -/
def Transcript.absorb (t : Transcript) (bs : List Nat) : Transcript :=
  ⟨t.data ++ bs⟩

/-- Modelled from the spec: `Transcript::squeeze` returns the digest of the
current state and folds that digest back into the state. -/
def Transcript.squeeze (h : List Nat → List Nat) (t : Transcript) :
    List Nat × Transcript :=
  let d := h t.data
  (d, ⟨t.data ++ d⟩)

/-- A fuel-based binary logarithm implementing `usize::ilog2` (floor log2);
written with explicit fuel so that the kernel can evaluate it. -/
def ilog2Go : Nat → Nat → Nat
  | 0, _ => 0
  | fuel + 1, n => if n ≥ 2 then ilog2Go fuel (n / 2) + 1 else 0

/-- `usize::ilog2`. -/
def ilog2 (n : Nat) : Nat := ilog2Go n n

theorem ilog2Go_eq (fuel : Nat) : ∀ n, n ≤ fuel → ilog2Go fuel n = Nat.log2 n := by
  induction fuel with
  | zero =>
    intro n h
    interval_cases n
    simp [ilog2Go, Nat.log2]
  | succ fuel ih =>
    intro n h
    rw [ilog2Go, Nat.log2]
    by_cases h2 : n ≥ 2
    · rw [if_pos h2, if_pos h2, ih (n / 2) (by omega)]
    · rw [if_neg h2, if_neg h2]

theorem ilog2_eq_log2 (n : Nat) : ilog2 n = Nat.log2 n := ilog2Go_eq n n le_rfl

theorem ilog2_two_pow {k : Nat} : ilog2 (2 ^ k) = k := by
  rw [ilog2_eq_log2, Nat.log2_two_pow]

section MultiLinear

variable {F : Type} [Field F]

/-- `MultiLinearPoly { computation: Vec<F> }`, embedded as its evaluation
table (`src/protocols/src/multi_linear.rs`). -/
abbrev MultiLinearPoly (F : Type) := List F

namespace MultiLinearPoly

/-- `MultiLinearPoly::variable_count`: log2 of the table length. -/
def variable_count (t : MultiLinearPoly F) : Nat := ilog2 t.length

/-- `MultiLinearPoly::get_power`. -/
def get_power (t : MultiLinearPoly F) (eval_point_index : Nat) : Nat :=
  variable_count t - eval_point_index - 1

/-- `MultiLinearPoly::partial_evaluate`: pairs entries `step` apart
(`step = 2^(v - pos - 1)`) and replaces each pair `(y₁, y₂)` by
`y₁ + (y₂ - y₁)·r`.  The Rust while-loop visits exactly the indices `i`
with `(i / step) % 2 = 0` in increasing order; the filtered range below
enumerates the same index sequence. -/
def partial_evaluate (t : MultiLinearPoly F) (eval_value : F)
    (eval_value_position : Nat) : MultiLinearPoly F :=
  ((List.range t.length).filter
      (fun i => i / 2 ^ get_power t eval_value_position % 2 = 0)).map
    (fun i => t.getD i 0 +
      (t.getD (i + 2 ^ get_power t eval_value_position) 0 - t.getD i 0) * eval_value)

/-- The evaluation loop of `MultiLinearPoly::evaluate`: repeated
`partial_evaluate` at variable position 0, consuming the points in order. -/
def evaluate_loop (t : MultiLinearPoly F) (eval_points : List F) :
    MultiLinearPoly F :=
  eval_points.foldl (fun acc r => partial_evaluate acc r 0) t

/-- `MultiLinearPoly::evaluate`: panics (here `none`) unless the number of
points equals the number of variables, then runs the loop. -/
def evaluate (t : MultiLinearPoly F) (eval_points : List F) :
    Option (MultiLinearPoly F) :=
  if eval_points.length = variable_count t then some (evaluate_loop t eval_points)
  else none

/-- `MultiLinearPoly::to_bytes`: concatenation of the big-endian field
encodings. -/
def to_bytes (E : Env F) (computation : List F) : List Nat :=
  (computation.map E.toBytes).flatten

end MultiLinearPoly

/-- The multilinear Lagrange basis polynomial over `v` variables evaluated at
the point `rs`, for hypercube vertex `i` (variable 0 is the most significant
index bit).  This is the spec-side definition of the MLE. -/
def lagBasis (v : Nat) (rs : List F) (i : Nat) : F :=
  ∏ j ∈ Finset.range v,
    (if i / 2 ^ (v - 1 - j) % 2 = 1 then rs.getD j 0 else 1 - rs.getD j 0)

/-- The multilinear extension of the table `t` evaluated at `rs`
(spec-side Lagrange form): `∑ᵢ t[i] · Lᵢ(rs)`. -/
def mleEval (t : List F) (rs : List F) : F :=
  ∑ i ∈ Finset.range t.length, t.getD i 0 * lagBasis rs.length rs i

namespace MultiLinearPoly

theorem variable_count_pow {t : MultiLinearPoly F} {k : Nat}
    (h : t.length = 2 ^ k) : variable_count t = k := by
  simp [variable_count, h, ilog2_two_pow]

theorem getD_map_range {f : Nat → F} {m i : Nat} (h : i < m) :
    ((List.range m).map f).getD i 0 = f i := by
  rw [List.getD_eq_getElem?_getD]
  simp [List.getElem?_map, List.getElem?_range h]

/-- Closed form of `partial_evaluate` at variable position 0: the first half
is combined with the second half entrywise. -/
theorem partial_evaluate_zero {t : MultiLinearPoly F} {n : Nat}
    (h : t.length = 2 ^ (n + 1)) (r : F) :
    partial_evaluate t r 0 =
      (List.range (2 ^ n)).map
        (fun i => t.getD i 0 + (t.getD (i + 2 ^ n) 0 - t.getD i 0) * r) := by
  have hv : variable_count t = n + 1 := variable_count_pow h
  have hstep : get_power t 0 = n := by simp [get_power, hv]
  have hsplit : (2 : Nat) ^ (n + 1) = 2 ^ n + 2 ^ n := by
    rw [pow_succ]; omega
  have hfilter : (List.range t.length).filter
      (fun i => decide (i / 2 ^ n % 2 = 0)) = List.range (2 ^ n) := by
    rw [h, hsplit, List.range_add, List.filter_append]
    have h1 : (List.range (2 ^ n)).filter
        (fun i => decide (i / 2 ^ n % 2 = 0)) = List.range (2 ^ n) := by
      apply List.filter_eq_self.mpr
      intro i hi
      have : i < 2 ^ n := List.mem_range.mp hi
      simp [Nat.div_eq_of_lt this]
    have h2 : ((List.range (2 ^ n)).map (fun x => 2 ^ n + x)).filter
        (fun i => decide (i / 2 ^ n % 2 = 0)) = [] := by
      apply List.filter_eq_nil_iff.mpr
      intro i hi
      obtain ⟨j, hj, rfl⟩ := List.mem_map.mp hi
      have hjlt : j < 2 ^ n := List.mem_range.mp hj
      have : (2 ^ n + j) / 2 ^ n = 1 := by
        rw [Nat.add_comm, Nat.add_div_right _ (Nat.pos_pow_of_pos n (by norm_num)),
          Nat.div_eq_of_lt hjlt]
      simp [this]
    rw [h1, h2, List.append_nil]
  unfold partial_evaluate
  rw [hstep, hfilter]


theorem length_partial_evaluate_zero {t : MultiLinearPoly F} {n : Nat}
    (h : t.length = 2 ^ (n + 1)) (r : F) :
    (partial_evaluate t r 0).length = 2 ^ n := by
  rw [partial_evaluate_zero h r]; simp

theorem getD_partial_evaluate_zero {t : MultiLinearPoly F} {n i : Nat}
    (h : t.length = 2 ^ (n + 1)) (r : F) (hi : i < 2 ^ n) :
    (partial_evaluate t r 0).getD i 0 =
      t.getD i 0 + (t.getD (i + 2 ^ n) 0 - t.getD i 0) * r := by
  rw [partial_evaluate_zero h r, getD_map_range hi]

end MultiLinearPoly

theorem div_pow_add_pow_mod {n k i : Nat} (hk : k < n) :
    (2 ^ n + i) / 2 ^ k % 2 = i / 2 ^ k % 2 := by
  have h1 : (2 : Nat) ^ n = 2 ^ (n - k) * 2 ^ k := by
    rw [← pow_add]; congr 1; omega
  rw [h1, Nat.add_comm, Nat.add_mul_div_right _ _ (Nat.pos_pow_of_pos k (by norm_num))]
  have h2 : (2 : Nat) ^ (n - k) = 2 * 2 ^ (n - k - 1) := by
    rw [← pow_succ']; congr 1; omega
  rw [h2, Nat.mul_comm 2 (2 ^ (n - k - 1)), Nat.add_mul_mod_self_right]

theorem lagBasis_cons_lo {n : Nat} (rs : List F) (r : F) {i : Nat}
    (h : i < 2 ^ n) :
    lagBasis (n + 1) (r :: rs) i = (1 - r) * lagBasis n rs i := by
  unfold lagBasis
  rw [Finset.prod_range_succ']
  have h0 : (if i / 2 ^ (n + 1 - 1 - 0) % 2 = 1 then (r :: rs).getD 0 0
      else 1 - (r :: rs).getD 0 0) = 1 - r := by
    have : n + 1 - 1 - 0 = n := by omega
    rw [this, Nat.div_eq_of_lt h]
    simp
  rw [h0, mul_comm]
  congr 1
  apply Finset.prod_congr rfl
  intro j hj
  have hsub : n + 1 - 1 - (j + 1) = n - 1 - j := by omega
  rw [hsub]
  simp

theorem lagBasis_cons_hi {n : Nat} (rs : List F) (r : F) {i : Nat}
    (h : i < 2 ^ n) :
    lagBasis (n + 1) (r :: rs) (2 ^ n + i) = r * lagBasis n rs i := by
  unfold lagBasis
  rw [Finset.prod_range_succ']
  have h0 : (if (2 ^ n + i) / 2 ^ (n + 1 - 1 - 0) % 2 = 1 then (r :: rs).getD 0 0
      else 1 - (r :: rs).getD 0 0) = r := by
    have hn : n + 1 - 1 - 0 = n := by omega
    have : (2 ^ n + i) / 2 ^ n = 1 := by
      rw [Nat.add_comm, Nat.add_div_right _ (Nat.pos_pow_of_pos n (by norm_num)),
        Nat.div_eq_of_lt h]
    rw [hn, this]
    simp
  rw [h0, mul_comm]
  congr 1
  apply Finset.prod_congr rfl
  intro j hj
  have hjn : j < n := Finset.mem_range.mp hj
  have hsub : n + 1 - 1 - (j + 1) = n - 1 - j := by omega
  have hbit : (2 ^ n + i) / 2 ^ (n - 1 - j) % 2 = i / 2 ^ (n - 1 - j) % 2 :=
    div_pow_add_pow_mod (by omega)
  rw [hsub, hbit]
  simp

/-- One step of the MLE evaluation: partially evaluating variable 0 of the
table corresponds to fixing the first coordinate of the Lagrange form. -/
theorem mleEval_step (t : MultiLinearPoly F) (r : F) (rs : List F) {n : Nat}
    (ht : t.length = 2 ^ (n + 1)) (hrs : rs.length = n) :
    mleEval t (r :: rs) = mleEval (MultiLinearPoly.partial_evaluate t r 0) rs := by
  unfold mleEval
  have hlen : (MultiLinearPoly.partial_evaluate t r 0).length = 2 ^ n :=
    MultiLinearPoly.length_partial_evaluate_zero ht r
  have hcons : (r :: rs).length = n + 1 := by simp [hrs]
  rw [ht, hlen, hcons, hrs]
  have hsplit : (2 : Nat) ^ (n + 1) = 2 ^ n + 2 ^ n := by rw [pow_succ]; omega
  rw [hsplit, Finset.sum_range_add]
  have hstep : ∀ i ∈ Finset.range (2 ^ n),
      t.getD i 0 * lagBasis (n + 1) (r :: rs) i +
        t.getD (2 ^ n + i) 0 * lagBasis (n + 1) (r :: rs) (2 ^ n + i) =
      (MultiLinearPoly.partial_evaluate t r 0).getD i 0 * lagBasis n rs i := by
    intro i hi
    have hilt : i < 2 ^ n := Finset.mem_range.mp hi
    rw [lagBasis_cons_lo rs r hilt, lagBasis_cons_hi rs r hilt,
      MultiLinearPoly.getD_partial_evaluate_zero ht r hilt]
    have : (2 : Nat) ^ n + i = i + 2 ^ n := by omega
    rw [this]
    ring
  rw [← Finset.sum_add_distrib]
  exact Finset.sum_congr rfl hstep

theorem evaluate_loop_eq_mle (rs : List F) :
    ∀ t : MultiLinearPoly F, t.length = 2 ^ rs.length →
      MultiLinearPoly.evaluate_loop t rs = [mleEval t rs] := by
  induction rs with
  | nil =>
    intro t h
    simp only [List.length_nil, pow_zero] at h
    obtain ⟨a, rfl⟩ := List.length_eq_one.mp h
    simp [MultiLinearPoly.evaluate_loop, mleEval, lagBasis]
  | cons r rs ih =>
    intro t h
    have hlen : t.length = 2 ^ (rs.length + 1) := by simpa using h
    have hpe : (MultiLinearPoly.partial_evaluate t r 0).length = 2 ^ rs.length :=
      MultiLinearPoly.length_partial_evaluate_zero hlen r
    have hfold : MultiLinearPoly.evaluate_loop t (r :: rs) =
        MultiLinearPoly.evaluate_loop (MultiLinearPoly.partial_evaluate t r 0) rs := rfl
    rw [hfold, ih _ hpe, mleEval_step t r rs hlen rfl]

/-- C4.  Multilinear evaluation agrees with the Lagrange MLE: for every table
of length `2^v` and every point of exactly `v` field elements, `evaluate`
(repeated `partial_evaluate` of variable 0) returns the unique multilinear
extension of the table evaluated at the point. -/
theorem c4_evaluate_agrees_with_mle (t : MultiLinearPoly F) (rs : List F)
    (h : t.length = 2 ^ rs.length) :
    MultiLinearPoly.evaluate t rs = some [mleEval t rs] := by
  unfold MultiLinearPoly.evaluate
  rw [MultiLinearPoly.variable_count_pow h, if_pos rfl,
    evaluate_loop_eq_mle rs t h]

end MultiLinear

instance : Fact (Nat.Prime 10007) := ⟨by norm_num⟩

/-- Witness for C4 at the E1 instance: the 16-entry table evaluated at
`(4, 2, 6, 1)` gives `120`. -/
theorem c4_evaluate_agrees_with_mle_witness :
    (([0, 0, 0, 0, 0, 4, 0, 4, 0, 0, 3, 3, 5, 9, 8, 12] :
        List (ZMod 10007)).length = 2 ^ (([4, 2, 6, 1] : List (ZMod 10007)).length)) ∧
    MultiLinearPoly.evaluate
        ([0, 0, 0, 0, 0, 4, 0, 4, 0, 0, 3, 3, 5, 9, 8, 12] : List (ZMod 10007))
        [4, 2, 6, 1] =
      some [mleEval ([0, 0, 0, 0, 0, 4, 0, 4, 0, 0, 3, 3, 5, 9, 8, 12] :
        List (ZMod 10007)) [4, 2, 6, 1]] ∧
    MultiLinearPoly.evaluate
        ([0, 0, 0, 0, 0, 4, 0, 4, 0, 0, 3, 3, 5, 9, 8, 12] : List (ZMod 10007))
        [4, 2, 6, 1] = some [(120 : ZMod 10007)] :=
  ⟨by decide, c4_evaluate_agrees_with_mle _ _ (by decide), by
    rw [c4_evaluate_agrees_with_mle _ _ (by decide)]; decide⟩

section Univariate

variable {F : Type} [Field F] [DecidableEq F]

/-- `UnivariatePoly { coefficient: Vec<F> }` (`src/protocols/src/lib.rs`),
embedded as its coefficient list, constant term first. -/
abbrev UnivariatePoly (F : Type) := List F

namespace UnivariatePoly

/-- `UnivariatePoly::evaluate`: Horner's rule from the highest coefficient
(a `reduce` over the reversed coefficient list; the `unwrap` on an empty
list is modelled as 0 and never reached by the callers below). -/
def evaluate (coefficient : UnivariatePoly F) (x : F) : F :=
  match coefficient.reverse with
  | [] => 0
  | h :: t => t.foldl (fun acc curr => acc * x + curr) h

/-- `UnivariatePoly::scalar_mul`. -/
def scalar_mul (p : UnivariatePoly F) (s : F) : UnivariatePoly F :=
  p.map (fun c => c * s)

/-- `Mul for &UnivariatePoly`: dense convolution of length
`(a.len-1) + (b.len-1) + 1`; entry `k` accumulates `aᵢ·bⱼ` over `i+j = k`. -/
def poly_mul (a b : UnivariatePoly F) : UnivariatePoly F :=
  (List.range (a.length - 1 + (b.length - 1) + 1)).map
    (fun k => ∑ i ∈ Finset.range a.length, ∑ j ∈ Finset.range b.length,
      if i + j = k then a.getD i 0 * b.getD j 0 else 0)

/-- `Add for &UnivariatePoly`: the lower-degree operand is added entrywise
into the higher-degree one. -/
def poly_add (a b : UnivariatePoly F) : UnivariatePoly F :=
  if a.length - 1 < b.length - 1 then
    (List.range b.length).map (fun i => b.getD i 0 + a.getD i 0)
  else
    (List.range a.length).map (fun i => a.getD i 0 + b.getD i 0)

/-- `Sum for UnivariatePoly`: left fold of `poly_add` starting from `[0]`. -/
def poly_sum (l : List (UnivariatePoly F)) : UnivariatePoly F :=
  l.foldl poly_add [0]

/-- `Product for UnivariatePoly`: left fold of `poly_mul` from `[1]`. -/
def poly_prod (l : List (UnivariatePoly F)) : UnivariatePoly F :=
  l.foldl poly_mul [1]

/-- The numerator of `UnivariatePoly::basis`: `∏ (x - xᵢ)` over the
interpolating set with the node `x` filtered out. -/
def basis_numerator (x : F) (interpolating_set : List F) : UnivariatePoly F :=
  poly_prod ((interpolating_set.filter (fun v => v ≠ x)).map (fun xi => [-xi, 1]))

/-- `UnivariatePoly::basis`: numerator scaled by
`1 / numerator.evaluate(x)`. -/
def basis (x : F) (interpolating_set : List F) : UnivariatePoly F :=
  scalar_mul (basis_numerator x interpolating_set)
    (1 / evaluate (basis_numerator x interpolating_set) x)

/-- `UnivariatePoly::interpolate`: `∑ basis(xᵢ).scalar_mul(yᵢ)`. -/
def interpolate (xs ys : List F) : UnivariatePoly F :=
  poly_sum ((xs.zip ys).map (fun p => scalar_mul (basis p.1 xs) p.2))

/-- The polynomial denoted by a coefficient list. -/
noncomputable def toPoly (l : List F) : Polynomial F :=
  ∑ i ∈ Finset.range l.length, Polynomial.C (l.getD i 0) * Polynomial.X ^ i

open Polynomial

theorem toPoly_nil : toPoly ([] : List F) = 0 := by simp [toPoly]

theorem toPoly_cons (c : F) (t : List F) :
    toPoly (c :: t) = C c + X * toPoly t := by
  unfold toPoly
  rw [List.length_cons, Finset.sum_range_succ']
  simp only [List.getD_cons_succ, List.getD_cons_zero, pow_zero, mul_one]
  rw [add_comm, Finset.mul_sum]
  congr 1
  apply Finset.sum_congr rfl
  intro i _
  rw [pow_succ']
  ring

theorem evaluate_nil (x : F) : evaluate ([] : UnivariatePoly F) x = 0 := rfl

theorem evaluate_cons (c : F) (t : List F) (x : F) :
    evaluate (c :: t) x = c + x * evaluate t x := by
  unfold evaluate
  rcases h : t.reverse with _ | ⟨h2, t2⟩
  · have : t = [] := by simpa using congrArg List.reverse h
    subst this
    simp
  · have hrev : (c :: t).reverse = h2 :: (t2 ++ [c]) := by
      rw [List.reverse_cons, h]; rfl
    rw [hrev]
    show (t2 ++ [c]).foldl (fun acc curr => acc * x + curr) h2 =
      c + x * t2.foldl (fun acc curr => acc * x + curr) h2
    rw [List.foldl_append]
    simp only [List.foldl_cons, List.foldl_nil]
    ring

theorem evaluate_toPoly (l : List F) (x : F) :
    evaluate l x = (toPoly l).eval x := by
  induction l with
  | nil => simp [evaluate_nil, toPoly_nil]
  | cons c t ih => rw [evaluate_cons, ih, toPoly_cons]; simp

theorem toPoly_map_range (f : Nat → F) (m : Nat) :
    toPoly ((List.range m).map f) = ∑ i ∈ Finset.range m, C (f i) * X ^ i := by
  unfold toPoly
  rw [List.length_map, List.length_range]
  apply Finset.sum_congr rfl
  intro i hi
  rw [MultiLinearPoly.getD_map_range (Finset.mem_range.mp hi)]

theorem toPoly_extend {l : List F} {m : Nat} (h : l.length ≤ m) :
    ∑ i ∈ Finset.range m, C (l.getD i 0) * X ^ i = toPoly l := by
  symm
  unfold toPoly
  apply Finset.sum_subset (Finset.range_subset.mpr h)
  intro i _ hni
  have : l.length ≤ i := by
    by_contra hc
    exact hni (Finset.mem_range.mpr (by omega))
  rw [List.getD_eq_default _ _ this]
  simp

theorem toPoly_poly_add {a : UnivariatePoly F} (b : UnivariatePoly F)
    (ha : a ≠ []) : toPoly (poly_add a b) = toPoly a + toPoly b := by
  have hlen : 1 ≤ a.length := List.length_pos.mpr ha
  unfold poly_add
  split
  · rename_i hlt
    have hle : a.length ≤ b.length := by omega
    rw [toPoly_map_range]
    simp only [map_add, add_mul]
    rw [Finset.sum_add_distrib, toPoly_extend (le_refl b.length), toPoly_extend hle,
      add_comm]
  · rename_i hge
    have hle : b.length ≤ a.length := by omega
    rw [toPoly_map_range]
    simp only [map_add, add_mul]
    rw [Finset.sum_add_distrib, toPoly_extend (le_refl a.length), toPoly_extend hle]

theorem length_poly_add_pos {a : UnivariatePoly F} (b : UnivariatePoly F)
    (ha : a ≠ []) : poly_add a b ≠ [] := by
  have hlen : 1 ≤ a.length := List.length_pos.mpr ha
  unfold poly_add
  split
  · rename_i hlt
    have : 1 ≤ b.length := by omega
    simp [← List.length_pos]
    omega
  · simp [← List.length_pos]
    omega

theorem toPoly_scalar_mul (p : UnivariatePoly F) (s : F) :
    toPoly (scalar_mul p s) = toPoly p * C s := by
  unfold scalar_mul toPoly
  rw [List.length_map, Finset.sum_mul]
  apply Finset.sum_congr rfl
  intro i hi
  have hilt : i < p.length := Finset.mem_range.mp hi
  have hmap : (p.map (fun c => c * s)).getD i 0 = p.getD i 0 * s := by
    rw [List.getD_eq_getElem _ _ (by simpa using hilt), List.getElem_map,
      List.getD_eq_getElem _ _ hilt]
  rw [hmap, map_mul]
  ring

theorem toPoly_poly_mul (a b : UnivariatePoly F) :
    toPoly (poly_mul a b) = toPoly a * toPoly b := by
  unfold poly_mul
  rw [toPoly_map_range]
  have lhs_eq : ∀ k,
      C (∑ i ∈ Finset.range a.length, ∑ j ∈ Finset.range b.length,
        if i + j = k then a.getD i 0 * b.getD j 0 else 0) * X ^ k =
      ∑ i ∈ Finset.range a.length, ∑ j ∈ Finset.range b.length,
        if i + j = k then C (a.getD i 0 * b.getD j 0) * X ^ k else 0 := by
    intro k
    rw [map_sum, Finset.sum_mul]
    apply Finset.sum_congr rfl
    intro i _
    rw [map_sum, Finset.sum_mul]
    apply Finset.sum_congr rfl
    intro j _
    rw [apply_ite C, map_zero, ite_mul, zero_mul]
  simp only [lhs_eq]
  rw [Finset.sum_comm]
  have swap2 : ∀ i ∈ Finset.range a.length,
      (∑ k ∈ Finset.range (a.length - 1 + (b.length - 1) + 1),
        ∑ j ∈ Finset.range b.length,
          if i + j = k then C (a.getD i 0 * b.getD j 0) * X ^ k else 0) =
      ∑ j ∈ Finset.range b.length, C (a.getD i 0 * b.getD j 0) * X ^ (i + j) := by
    intro i hi
    rw [Finset.sum_comm]
    apply Finset.sum_congr rfl
    intro j hj
    have hmem : i + j ∈ Finset.range (a.length - 1 + (b.length - 1) + 1) := by
      have h1 : i < a.length := Finset.mem_range.mp hi
      have h2 : j < b.length := Finset.mem_range.mp hj
      exact Finset.mem_range.mpr (by omega)
    rw [Finset.sum_ite_eq (Finset.range (a.length - 1 + (b.length - 1) + 1)) (i + j)
      (fun k => C (a.getD i 0 * b.getD j 0) * X ^ k), if_pos hmem]
  rw [Finset.sum_congr rfl swap2]
  unfold toPoly
  rw [Finset.sum_mul_sum]
  apply Finset.sum_congr rfl
  intro i _
  apply Finset.sum_congr rfl
  intro j _
  rw [map_mul, pow_add]
  ring

theorem toPoly_poly_sum_fold (l : List (UnivariatePoly F)) :
    ∀ acc : UnivariatePoly F, acc ≠ [] →
      toPoly (l.foldl poly_add acc) = toPoly acc + (l.map toPoly).sum := by
  induction l with
  | nil => intro acc hacc; simp
  | cons p rest ih =>
    intro acc hacc
    rw [List.foldl_cons, ih (poly_add acc p) (length_poly_add_pos p hacc),
      toPoly_poly_add p hacc]
    simp [add_assoc]

theorem toPoly_poly_sum (l : List (UnivariatePoly F)) :
    toPoly (poly_sum l) = (l.map toPoly).sum := by
  have h0 : toPoly ([0] : UnivariatePoly F) = 0 := by
    unfold toPoly; simp
  rw [poly_sum, toPoly_poly_sum_fold l [0] (by simp), h0, zero_add]

theorem toPoly_poly_prod_fold (l : List (UnivariatePoly F)) :
    ∀ acc : UnivariatePoly F,
      toPoly (l.foldl poly_mul acc) = toPoly acc * (l.map toPoly).prod := by
  induction l with
  | nil => intro acc; simp
  | cons p rest ih =>
    intro acc
    rw [List.foldl_cons, ih (poly_mul acc p), toPoly_poly_mul]
    simp [mul_assoc]

theorem toPoly_poly_prod (l : List (UnivariatePoly F)) :
    toPoly (poly_prod l) = (l.map toPoly).prod := by
  have h1 : toPoly ([1] : UnivariatePoly F) = 1 := by
    unfold toPoly; simp
  rw [poly_prod, toPoly_poly_prod_fold l [1], h1, one_mul]

theorem toPoly_linear (v : F) : toPoly [-v, 1] = X - C v := by
  rw [toPoly_cons, toPoly_cons, toPoly_nil]
  simp [map_neg]
  ring

theorem toPoly_basis_numerator (x : F) (s : List F) :
    toPoly (basis_numerator x s) =
      ((s.filter (fun v => v ≠ x)).map (fun v => X - C v)).prod := by
  rw [basis_numerator, toPoly_poly_prod, List.map_map]
  congr 1
  apply List.map_congr_left
  intro v _
  exact toPoly_linear v

theorem eval_basis_numerator (x y : F) (s : List F) :
    evaluate (basis_numerator x s) y =
      ((s.filter (fun v => v ≠ x)).map (fun v => y - v)).prod := by
  rw [evaluate_toPoly, toPoly_basis_numerator, eval_list_prod, List.map_map]
  congr 1
  apply List.map_congr_left
  intro v _
  simp

theorem eval_basis_numerator_self_ne_zero (x : F) (s : List F) :
    evaluate (basis_numerator x s) x ≠ 0 := by
  rw [eval_basis_numerator]
  apply List.prod_ne_zero
  intro hmem
  obtain ⟨v, hv, hvv⟩ := List.mem_map.mp hmem
  have : v ≠ x := by simpa using (List.mem_filter.mp hv).2
  exact this (by linear_combination -hvv)

theorem eval_toPoly_basis_self (x : F) (s : List F) :
    (toPoly (basis x s)).eval x = 1 := by
  rw [basis, toPoly_scalar_mul, eval_mul, eval_C, ← evaluate_toPoly]
  rw [one_div, mul_inv_cancel₀ (eval_basis_numerator_self_ne_zero x s)]

theorem eval_toPoly_basis_ne (x y : F) (s : List F) (hy : y ∈ s)
    (hxy : y ≠ x) : (toPoly (basis x s)).eval y = 0 := by
  rw [basis, toPoly_scalar_mul, eval_mul, ← evaluate_toPoly, eval_basis_numerator]
  have hmem : (0 : F) ∈ (s.filter (fun v => v ≠ x)).map (fun v => y - v) := by
    apply List.mem_map.mpr
    exact ⟨y, List.mem_filter.mpr ⟨hy, by simpa using hxy⟩, by ring⟩
  rw [List.prod_eq_zero hmem, zero_mul]

theorem list_map_sum_eq {α M : Type} [AddCommMonoid M] (l : List α) (f : α → M)
    (d : α) : (l.map f).sum = ∑ i ∈ Finset.range l.length, f (l.getD i d) := by
  induction l with
  | nil => simp
  | cons a t ih =>
    rw [List.map_cons, List.sum_cons, List.length_cons, Finset.sum_range_succ']
    simp only [List.getD_cons_succ, List.getD_cons_zero]
    rw [ih, add_comm]

theorem length_poly_mul (a b : UnivariatePoly F) :
    (poly_mul a b).length = a.length - 1 + (b.length - 1) + 1 := by
  simp [poly_mul]

theorem length_poly_prod_linears (L : List (UnivariatePoly F)) :
    ∀ acc : UnivariatePoly F, (∀ p ∈ L, p.length = 2) → 1 ≤ acc.length →
      (L.foldl poly_mul acc).length = acc.length + L.length := by
  induction L with
  | nil => intro acc _ _; simp
  | cons p rest ih =>
    intro acc hlen hacc
    rw [List.foldl_cons, ih (poly_mul acc p) (fun q hq => hlen q (by simp [hq]))]
    · rw [length_poly_mul, hlen p (by simp)]
      simp
      omega
    · rw [length_poly_mul]; omega

theorem length_basis_numerator (x : F) (s : List F) :
    (basis_numerator x s).length = (s.filter (fun v => v ≠ x)).length + 1 := by
  rw [basis_numerator, poly_prod,
    length_poly_prod_linears _ [1] (by intro p hp; obtain ⟨v, _, rfl⟩ := List.mem_map.mp hp; rfl)
      (by simp)]
  simp [add_comm]

theorem length_basis (x : F) (s : List F) :
    (basis x s).length = (s.filter (fun v => v ≠ x)).length + 1 := by
  rw [basis, scalar_mul, List.length_map, length_basis_numerator]

theorem length_filter_ne_of_nodup {s : List F} {x : F} (hnd : s.Nodup)
    (hx : x ∈ s) : (s.filter (fun v => v ≠ x)).length = s.length - 1 := by
  induction s with
  | nil => simp at hx
  | cons a t ih =>
    rcases List.mem_cons.mp hx with rfl | hxt
    · have hnot : x ∉ t := (List.nodup_cons.mp hnd).1
      have hft : t.filter (fun v => decide (v ≠ x)) = t := by
        apply List.filter_eq_self.mpr
        intro v hv
        have hvx : v ≠ x := fun h => hnot (h ▸ hv)
        simp [hvx]
      rw [List.filter_cons_of_neg (by simp), hft]
      simp
    · have hax : a ≠ x := fun h => (List.nodup_cons.mp hnd).1 (h ▸ hxt)
      have ht : 1 ≤ t.length := List.length_pos.mpr (List.ne_nil_of_mem hxt)
      rw [List.filter_cons_of_pos (by simp [hax]), List.length_cons,
        ih (List.nodup_cons.mp hnd).2 hxt, List.length_cons]
      omega

theorem degree_toPoly_lt (l : List F) :
    (toPoly l).degree < (l.length : ℕ) := by
  unfold toPoly
  apply lt_of_le_of_lt (degree_sum_le _ _)
  apply Finset.sup_lt_iff (by exact WithBot.bot_lt_coe _) |>.mpr
  intro i hi
  apply lt_of_le_of_lt (degree_C_mul_X_pow_le i (l.getD i 0))
  exact_mod_cast Finset.mem_range.mp hi

theorem degree_toPoly_basis_lt {s : List F} {x : F} (hnd : s.Nodup)
    (hx : x ∈ s) : (toPoly (basis x s)).degree < (s.length : ℕ) := by
  have h := degree_toPoly_lt (basis x s)
  rw [length_basis, length_filter_ne_of_nodup hnd hx] at h
  have hpos : 1 ≤ s.length := List.length_pos.mpr (List.ne_nil_of_mem hx)
  have : s.length - 1 + 1 = s.length := by omega
  rwa [this] at h

theorem toPoly_interpolate_sum (xs ys : List F) (hlen : ys.length = xs.length) :
    toPoly (interpolate xs ys) =
      ∑ i ∈ Finset.range xs.length,
        toPoly (basis (xs.getD i 0) xs) * C (ys.getD i 0) := by
  rw [interpolate, toPoly_poly_sum, List.map_map,
    list_map_sum_eq _ _ (0, 0)]
  rw [List.length_zip, hlen, min_self]
  apply Finset.sum_congr rfl
  intro i hi
  have hilt : i < xs.length := Finset.mem_range.mp hi
  have hzip : (xs.zip ys).getD i (0, 0) = (xs.getD i 0, ys.getD i 0) := by
    rw [List.getD_eq_getElem _ _ (by rw [List.length_zip, hlen, min_self]; exact hilt),
      List.getElem_zip, List.getD_eq_getElem _ _ hilt,
      List.getD_eq_getElem _ _ (by omega)]
  simp only [Function.comp_apply, hzip]
  rw [toPoly_scalar_mul]

theorem eval_toPoly_interpolate_node (xs ys : List F) (hnd : xs.Nodup)
    (hlen : ys.length = xs.length) {j : Nat} (hj : j < xs.length) :
    (toPoly (interpolate xs ys)).eval (xs.getD j 0) = ys.getD j 0 := by
  rw [toPoly_interpolate_sum xs ys hlen, eval_finset_sum]
  rw [Finset.sum_eq_single j]
  · rw [eval_mul, eval_C, eval_toPoly_basis_self, one_mul]
  · intro i hi hne
    rw [eval_mul, eval_C, eval_toPoly_basis_ne, zero_mul]
    · rw [List.getD_eq_getElem _ _ hj]
      exact List.getElem_mem hj
    · rw [List.getD_eq_getElem _ _ hj,
        List.getD_eq_getElem _ _ (Finset.mem_range.mp hi)]
      intro he
      exact hne ((List.Nodup.getElem_inj_iff hnd).mp he.symm)
  · intro hj2
    exact absurd (Finset.mem_range.mpr hj) hj2

/-- The Lagrange interpolation implemented by `UnivariatePoly::interpolate`
recovers any polynomial of degree `< xs.length` from its values at the
distinct nodes `xs`. -/
theorem interpolate_recovers (q : Polynomial F) (xs ys : List F)
    (hnd : xs.Nodup) (hlen : ys.length = xs.length)
    (hdeg : q.degree < (xs.length : ℕ))
    (hy : ∀ j, j < xs.length → ys.getD j 0 = q.eval (xs.getD j 0)) (x : F) :
    evaluate (interpolate xs ys) x = q.eval x := by
  suffices h : toPoly (interpolate xs ys) = q by rw [evaluate_toPoly, h]
  have hcard : xs.toFinset.card = xs.length := List.toFinset_card_of_nodup hnd
  apply Polynomial.eq_of_degrees_lt_of_eval_finset_eq xs.toFinset
  · rw [hcard, toPoly_interpolate_sum xs ys hlen]
    apply lt_of_le_of_lt (degree_sum_le _ _)
    apply Finset.sup_lt_iff (by exact WithBot.bot_lt_coe _) |>.mpr
    intro i hi
    apply lt_of_le_of_lt (degree_mul_le _ _)
    have h1 : (toPoly (basis (xs.getD i 0) xs)).degree < (xs.length : ℕ) := by
      apply degree_toPoly_basis_lt hnd
      rw [List.getD_eq_getElem _ _ (Finset.mem_range.mp hi)]
      exact List.getElem_mem (Finset.mem_range.mp hi)
    calc (toPoly (basis (xs.getD i 0) xs)).degree + (C (ys.getD i 0)).degree
        ≤ (toPoly (basis (xs.getD i 0) xs)).degree + 0 := by
          apply add_le_add_left degree_C_le
      _ = (toPoly (basis (xs.getD i 0) xs)).degree := by rw [add_zero]
      _ < (xs.length : ℕ) := h1
  · rwa [hcard]
  · intro a ha
    obtain ⟨j, hj, rfl⟩ := List.mem_iff_getElem.mp (List.mem_toFinset.mp ha)
    rw [← List.getD_eq_getElem _ (0 : F) hj,
      eval_toPoly_interpolate_node xs ys hnd hlen hj, hy j hj]

end UnivariatePoly

end Univariate

section SumCheck

variable {F : Type} [Field F] [DecidableEq F]

/-- `ProductPoly { poly_array: Vec<MultiLinearPoly<F>> }`
(`src/protocols/src/gkr/product_poly.rs`), embedded as the list of factor
tables. -/
abbrev ProductPoly (F : Type) := List (MultiLinearPoly F)

namespace ProductPoly

/-- `ProductPoly::get_degree`: the number of factors. -/
def get_degree (pp : ProductPoly F) : Nat := pp.length

/-- `ProductPoly::partial_evaluate`: partially evaluates each factor
independently. -/
def partial_evaluate (pp : ProductPoly F) (eval_value : F)
    (eval_value_position : Nat) : ProductPoly F :=
  pp.map (fun m => MultiLinearPoly.partial_evaluate m eval_value eval_value_position)

/-- `ProductPoly::reduce`: elementwise product of the factors; the loop
bound is the first factor's length (in the source `self` and the argument
are the same object at every call site). -/
def reduce (pp : ProductPoly F) : MultiLinearPoly F :=
  (List.range pp.headI.length).map
    (fun i => (pp.map (fun m => m.getD i 0)).prod)

/-- `ProductPoly::univariate_to_evaluation`: the `d+1` samples at the points
`0, 1, …, d` of the univariate round polynomial. -/
def univariate_to_evaluation (pp : ProductPoly F) : List F :=
  (List.range (get_degree pp + 1)).map
    (fun i : Nat => (reduce (partial_evaluate pp (i : F) 0)).sum)

end ProductPoly

namespace PartialSumCheck

/-- `partial_sum_check::Proof`. -/
structure Proof (F : Type) where
  sum_poly : List (ProductPoly F)
  init_claimed_sum : F
  challenges : List F
  round_polys : List (List F)

/-- `partial_sum_check::SubClaim`. -/
structure SubClaim (F : Type) where
  challenges : List F
  last_claimed_sum : F
  deriving DecidableEq

/-- `partial_sum_check::reduce`: elementwise sum of the per-product sample
vectors; the loop bound is the first vector's length. -/
def reduce (m_poly_array : List (List F)) : List F :=
  (List.range m_poly_array.headI.length).map
    (fun i => (m_poly_array.map (fun a => a.getD i 0)).sum)

/-- The while-loop of `partial_sum_check::proof`, rendered as a recursion on
the remaining round count `initial_length`; the challenge and round-poly
vectors are produced in push order. -/
def proof_loop (E : Env F) : Nat → List (ProductPoly F) → Transcript →
    List (ProductPoly F) × List F × List (List F)
  | 0, sum_poly, _t => (sum_poly, [], [])
  | n + 1, sum_poly, t =>
    let round_poly := reduce (sum_poly.map ProductPoly.univariate_to_evaluation)
    let t1 := t.absorb (MultiLinearPoly.to_bytes E round_poly)
    let sq := t1.squeeze E.thash
    let challenge := E.fromBytes sq.1
    let next := sum_poly.map (fun pp => ProductPoly.partial_evaluate pp challenge 0)
    let rest := proof_loop E n next sq.2
    (rest.1, challenge :: rest.2.1, round_poly :: rest.2.2)

/-- `partial_sum_check::proof`: derives the round count from the first
factor of the first product and runs the loop on a fresh transcript. -/
def proof (E : Env F) (sum_poly : List (ProductPoly F)) (init_claimed_sum : F) :
    Proof F :=
  let initial_length := ilog2 sum_poly.headI.headI.length
  let res := proof_loop E initial_length sum_poly Transcript.new
  ⟨res.1, init_claimed_sum, res.2.1, res.2.2⟩

/-- The round loop of `partial_sum_check::verify`; the panic on a round-sum
mismatch is modelled by `none`. -/
def verify_loop (E : Env F) (xs : List F) : List (List F) → Transcript → F →
    Option (List F × F)
  | [], _t, claimed_sum => some ([], claimed_sum)
  | round_poly :: rest, t, claimed_sum =>
    if round_poly.getD 0 0 + round_poly.getD 1 0 ≠ claimed_sum then none
    else
      let t1 := t.absorb (MultiLinearPoly.to_bytes E round_poly)
      let sq := t1.squeeze E.thash
      let challenge := E.fromBytes sq.1
      let claimed2 := UnivariatePoly.evaluate
        (UnivariatePoly.interpolate xs round_poly) challenge
      match verify_loop E xs rest sq.2 claimed2 with
      | some res => some (challenge :: res.1, res.2)
      | none => none

/-- `partial_sum_check::verify`. -/
def verify (E : Env F) (p : Proof F) : Option (SubClaim F) :=
  let degree := ProductPoly.get_degree p.sum_poly.headI
  let xs := (List.range (degree + 1)).map (fun i : Nat => (i : F))
  match verify_loop E xs p.round_polys Transcript.new p.init_claimed_sum with
  | some res => some ⟨res.1, res.2⟩
  | none => none

/-- Spec-side: the sum, over the products, of the sum over the Boolean
hypercube `{0,1}^v` of the elementwise factor products. -/
def hypercubeSum (v : Nat) (sum_poly : List (ProductPoly F)) : F :=
  (sum_poly.map (fun pp =>
    ∑ i ∈ Finset.range (2 ^ v), (pp.map (fun m => m.getD i 0)).prod)).sum

/-- Spec-side: the sum of products with every factor replaced by its
multilinear extension evaluated at `rs`. -/
def productsEvalAt (sum_poly : List (ProductPoly F)) (rs : List F) : F :=
  (sum_poly.map (fun pp => (pp.map (fun m => mleEval m rs)).prod)).sum

open Polynomial

theorem sum_map_list_range (n : Nat) (f : Nat → F) :
    ((List.range n).map f).sum = ∑ i ∈ Finset.range n, f i := by
  rw [UnivariatePoly.list_map_sum_eq _ _ 0, List.length_range]
  apply Finset.sum_congr rfl
  intro i hi
  rw [List.getD_eq_getElem _ _ (by simpa using Finset.mem_range.mp hi)]
  simp

theorem list_headI_mem {α : Type} [Inhabited α] {l : List α} (h : l ≠ []) :
    l.headI ∈ l := by
  obtain ⟨a, t, rfl⟩ := List.exists_cons_of_ne_nil h
  simp

theorem eval_sum_list (l : List (Polynomial F)) (x : F) :
    (l.sum).eval x = (l.map (eval x)).sum :=
  map_list_sum (Polynomial.evalRingHom x) l

/-- The linear factor `f[i] + (f[i + 2^v] - f[i])·X` contributed by a factor
table to the round polynomial. -/
noncomputable def factorLin (v i : Nat) (f : MultiLinearPoly F) : Polynomial F :=
  C (f.getD i 0) + C (f.getD (i + 2 ^ v) 0 - f.getD i 0) * X

/-- The true univariate round polynomial of a single product: the sum over
the remaining hypercube of the products of the linear factors. -/
noncomputable def roundPoly (v : Nat) (pp : ProductPoly F) : Polynomial F :=
  ∑ i ∈ Finset.range (2 ^ v), (pp.map (factorLin v i)).prod

theorem eval_factorLin (v i : Nat) (f : MultiLinearPoly F) (x : F) :
    (factorLin v i f).eval x =
      f.getD i 0 + (f.getD (i + 2 ^ v) 0 - f.getD i 0) * x := by
  simp [factorLin]

theorem degree_factorLin (v i : Nat) (f : MultiLinearPoly F) :
    (factorLin v i f).degree ≤ 1 := by
  apply le_trans (degree_add_le _ _)
  apply max_le
  · exact le_trans degree_C_le (by norm_num)
  · apply le_trans (degree_mul_le _ _)
    calc (C (f.getD (i + 2 ^ v) 0 - f.getD i 0)).degree + (X : Polynomial F).degree
        ≤ 0 + 1 := add_le_add degree_C_le degree_X_le
      _ = 1 := by norm_num

theorem degree_list_prod_le_card (l : List (Polynomial F))
    (h : ∀ p ∈ l, p.degree ≤ 1) : l.prod.degree ≤ (l.length : ℕ) := by
  induction l with
  | nil => simp
  | cons p rest ih =>
    rw [List.prod_cons]
    apply le_trans (degree_mul_le _ _)
    calc p.degree + rest.prod.degree
        ≤ 1 + (rest.length : ℕ) :=
          add_le_add (h p (by simp)) (ih (fun q hq => h q (by simp [hq])))
      _ = ((p :: rest).length : ℕ) := by
          rw [List.length_cons]
          push_cast
          rw [add_comm]

theorem degree_roundPoly (v : Nat) (pp : ProductPoly F) :
    (roundPoly v pp).degree ≤ (pp.length : ℕ) := by
  apply le_trans (degree_sum_le _ _)
  apply Finset.sup_le
  intro i _
  apply le_trans (degree_list_prod_le_card _ (by
    intro p hp
    obtain ⟨f, _, rfl⟩ := List.mem_map.mp hp
    exact degree_factorLin v i f))
  simp

theorem degree_list_sum_le_bound (l : List (Polynomial F)) (D : WithBot ℕ)
    (h : ∀ p ∈ l, p.degree ≤ D) : l.sum.degree ≤ D ⊔ 0 := by
  induction l with
  | nil => simp
  | cons p rest ih =>
    rw [List.sum_cons]
    apply le_trans (degree_add_le _ _)
    apply max_le
    · exact le_trans (h p (by simp)) le_sup_left
    · exact ih (fun q hq => h q (by simp [hq]))

theorem eval_roundPoly {v : Nat} {pp : ProductPoly F} (hne : pp ≠ [])
    (hflen : ∀ f ∈ pp, f.length = 2 ^ (v + 1)) (x : F) :
    (roundPoly v pp).eval x =
      (ProductPoly.reduce (ProductPoly.partial_evaluate pp x 0)).sum := by
  obtain ⟨f0, pp2, rfl⟩ := List.exists_cons_of_ne_nil hne
  have hhead : (ProductPoly.partial_evaluate (f0 :: pp2) x 0).headI.length = 2 ^ v := by
    show (MultiLinearPoly.partial_evaluate f0 x 0).length = 2 ^ v
    exact MultiLinearPoly.length_partial_evaluate_zero (hflen f0 (by simp)) x
  rw [ProductPoly.reduce, hhead, sum_map_list_range]
  rw [roundPoly, eval_finset_sum]
  apply Finset.sum_congr rfl
  intro i hi
  have hilt : i < 2 ^ v := Finset.mem_range.mp hi
  rw [eval_list_prod, List.map_map, ProductPoly.partial_evaluate, List.map_map]
  congr 1
  apply List.map_congr_left
  intro f hf
  show (factorLin v i f).eval x = (MultiLinearPoly.partial_evaluate f x 0).getD i 0
  rw [eval_factorLin,
    MultiLinearPoly.getD_partial_evaluate_zero (hflen f hf) x hilt]

theorem univariate_sample {v : Nat} {pp : ProductPoly F} {k : Nat}
    (hk : k < pp.length + 1) (hne : pp ≠ [])
    (hflen : ∀ f ∈ pp, f.length = 2 ^ (v + 1)) :
    (ProductPoly.univariate_to_evaluation pp).getD k 0 =
      (roundPoly v pp).eval (k : F) := by
  rw [ProductPoly.univariate_to_evaluation, ProductPoly.get_degree,
    MultiLinearPoly.getD_map_range hk, eval_roundPoly hne hflen]

/-- The round polynomial sent in a round. -/
def round_g (sp : List (ProductPoly F)) : List F :=
  reduce (sp.map ProductPoly.univariate_to_evaluation)

/-- The challenge squeezed after absorbing the round polynomial. -/
def round_c (E : Env F) (sp : List (ProductPoly F)) (t : Transcript) : F :=
  E.fromBytes ((t.absorb (MultiLinearPoly.to_bytes E (round_g sp))).squeeze E.thash).1

/-- The transcript state after the round's absorb and squeeze. -/
def round_t2 (E : Env F) (sp : List (ProductPoly F)) (t : Transcript) : Transcript :=
  ((t.absorb (MultiLinearPoly.to_bytes E (round_g sp))).squeeze E.thash).2

/-- The sum polynomial after partially evaluating at the round challenge. -/
def round_next (E : Env F) (sp : List (ProductPoly F)) (t : Transcript) :
    List (ProductPoly F) :=
  sp.map (fun pp => ProductPoly.partial_evaluate pp (round_c E sp t) 0)

theorem proof_loop_succ (E : Env F) (n : Nat) (sp : List (ProductPoly F))
    (t : Transcript) :
    proof_loop E (n + 1) sp t =
      ((proof_loop E n (round_next E sp t) (round_t2 E sp t)).1,
        round_c E sp t :: (proof_loop E n (round_next E sp t) (round_t2 E sp t)).2.1,
        round_g sp :: (proof_loop E n (round_next E sp t) (round_t2 E sp t)).2.2) := rfl

theorem verify_loop_cons (E : Env F) (xs rp : List F) (rest : List (List F))
    (t : Transcript) (claimed : F) :
    verify_loop E xs (rp :: rest) t claimed =
      if rp.getD 0 0 + rp.getD 1 0 ≠ claimed then none
      else
        match verify_loop E xs rest
            ((t.absorb (MultiLinearPoly.to_bytes E rp)).squeeze E.thash).2
            (UnivariatePoly.evaluate (UnivariatePoly.interpolate xs rp)
              (E.fromBytes ((t.absorb (MultiLinearPoly.to_bytes E rp)).squeeze
                E.thash).1)) with
        | some res =>
          some (E.fromBytes ((t.absorb (MultiLinearPoly.to_bytes E rp)).squeeze
            E.thash).1 :: res.1, res.2)
        | none => none := rfl

theorem proof_loop_lengths (E : Env F) :
    ∀ (n : Nat) (sp : List (ProductPoly F)) (t : Transcript),
      (proof_loop E n sp t).2.1.length = n ∧
        (proof_loop E n sp t).2.2.length = n := by
  intro n
  induction n with
  | zero => intro sp t; exact ⟨rfl, rfl⟩
  | succ n ih =>
    intro sp t
    rw [proof_loop_succ]
    constructor
    · simp [(ih _ _).1]
    · simp [(ih _ _).2]

theorem proof_loop_final_state (E : Env F) (d : Nat) :
    ∀ (n : Nat) (sp : List (ProductPoly F)) (t : Transcript),
      sp ≠ [] → (∀ pp ∈ sp, pp.length = d) →
      (proof_loop E n sp t).1 ≠ [] ∧
        ∀ pp ∈ (proof_loop E n sp t).1, pp.length = d := by
  intro n
  induction n with
  | zero => intro sp t hsp hd; exact ⟨hsp, hd⟩
  | succ n ih =>
    intro sp t hsp hd
    rw [proof_loop_succ]
    apply ih
    · simp [round_next, hsp]
    · intro pp hpp
      obtain ⟨pp0, hpp0, rfl⟩ := List.mem_map.mp hpp
      rw [ProductPoly.partial_evaluate, List.length_map]
      exact hd pp0 hpp0

theorem headI_map_univ {sp : List (ProductPoly F)} (hsp : sp ≠ []) :
    (sp.map ProductPoly.univariate_to_evaluation).headI =
      ProductPoly.univariate_to_evaluation sp.headI := by
  obtain ⟨pp0, rest, rfl⟩ := List.exists_cons_of_ne_nil hsp
  rfl

theorem length_round_g {sp : List (ProductPoly F)} {d : Nat} (hsp : sp ≠ [])
    (hd : ∀ pp ∈ sp, pp.length = d) : (round_g sp).length = d + 1 := by
  rw [round_g, reduce, List.length_map, List.length_range, headI_map_univ hsp,
    ProductPoly.univariate_to_evaluation, List.length_map, List.length_range,
    ProductPoly.get_degree]
  rw [hd sp.headI (list_headI_mem hsp)]

theorem getD_round_g {sp : List (ProductPoly F)} {v d k : Nat} (hsp : sp ≠ [])
    (hd : ∀ pp ∈ sp, pp.length = d) (hdpos : 1 ≤ d)
    (hflen : ∀ pp ∈ sp, ∀ f ∈ pp, f.length = 2 ^ (v + 1)) (hk : k < d + 1) :
    (round_g sp).getD k 0 = ((sp.map (roundPoly v)).sum).eval (k : F) := by
  have hhead : (sp.map ProductPoly.univariate_to_evaluation).headI.length = d + 1 := by
    rw [headI_map_univ hsp, ProductPoly.univariate_to_evaluation, List.length_map,
      List.length_range, ProductPoly.get_degree, hd sp.headI (list_headI_mem hsp)]
  rw [round_g, reduce, hhead, MultiLinearPoly.getD_map_range hk, List.map_map,
    eval_sum_list, List.map_map]
  congr 1
  apply List.map_congr_left
  intro pp hpp
  have hne : pp ≠ [] := by
    intro h
    have := hd pp hpp
    rw [h] at this
    simp at this
    omega
  exact univariate_sample (by rw [hd pp hpp]; exact hk) hne (hflen pp hpp)

theorem reduce_pe_sum {v : Nat} {pp : ProductPoly F} (hne : pp ≠ [])
    (hflen : ∀ f ∈ pp, f.length = 2 ^ (v + 1)) (c : F) :
    (ProductPoly.reduce (ProductPoly.partial_evaluate pp c 0)).sum =
      ∑ i ∈ Finset.range (2 ^ v),
        ((ProductPoly.partial_evaluate pp c 0).map (fun m => m.getD i 0)).prod := by
  obtain ⟨f0, pp2, rfl⟩ := List.exists_cons_of_ne_nil hne
  have hhead : (ProductPoly.partial_evaluate (f0 :: pp2) c 0).headI.length = 2 ^ v := by
    show (MultiLinearPoly.partial_evaluate f0 c 0).length = 2 ^ v
    exact MultiLinearPoly.length_partial_evaluate_zero (hflen f0 (by simp)) c
  rw [ProductPoly.reduce, hhead, sum_map_list_range]

theorem roundPoly_zero_one {v : Nat} {pp : ProductPoly F} :
    (roundPoly v pp).eval 0 + (roundPoly v pp).eval 1 =
      ∑ i ∈ Finset.range (2 ^ (v + 1)), (pp.map (fun m => m.getD i 0)).prod := by
  have hsplit : (2 : Nat) ^ (v + 1) = 2 ^ v + 2 ^ v := by rw [pow_succ]; omega
  rw [hsplit, Finset.sum_range_add, roundPoly, eval_finset_sum, eval_finset_sum]
  congr 1
  · apply Finset.sum_congr rfl
    intro i _
    rw [eval_list_prod, List.map_map]
    congr 1
    apply List.map_congr_left
    intro f _
    show (factorLin v i f).eval 0 = f.getD i 0
    rw [eval_factorLin]
    ring
  · apply Finset.sum_congr rfl
    intro i _
    rw [eval_list_prod, List.map_map]
    congr 1
    apply List.map_congr_left
    intro f _
    show (factorLin v i f).eval 1 = f.getD (2 ^ v + i) 0
    rw [eval_factorLin]
    have : i + 2 ^ v = 2 ^ v + i := by omega
    rw [this]
    ring

theorem check_sum {sp : List (ProductPoly F)} {v d : Nat} (hsp : sp ≠ [])
    (hd : ∀ pp ∈ sp, pp.length = d) (hdpos : 1 ≤ d)
    (hflen : ∀ pp ∈ sp, ∀ f ∈ pp, f.length = 2 ^ (v + 1)) :
    (round_g sp).getD 0 0 + (round_g sp).getD 1 0 = hypercubeSum (v + 1) sp := by
  rw [getD_round_g hsp hd hdpos hflen (by omega),
    getD_round_g hsp hd hdpos hflen (by omega)]
  rw [eval_sum_list, eval_sum_list, List.map_map, List.map_map, hypercubeSum]
  rw [UnivariatePoly.list_map_sum_eq _ _ ([] : ProductPoly F),
    UnivariatePoly.list_map_sum_eq _ _ ([] : ProductPoly F),
    UnivariatePoly.list_map_sum_eq _ _ ([] : ProductPoly F),
    ← Finset.sum_add_distrib]
  apply Finset.sum_congr rfl
  intro i hi
  simp only [Function.comp_apply, Nat.cast_zero, Nat.cast_one]
  exact roundPoly_zero_one

theorem spoly_eval_next {sp : List (ProductPoly F)} {v d : Nat} (hsp : sp ≠ [])
    (hd : ∀ pp ∈ sp, pp.length = d) (hdpos : 1 ≤ d)
    (hflen : ∀ pp ∈ sp, ∀ f ∈ pp, f.length = 2 ^ (v + 1)) (c : F) :
    ((sp.map (roundPoly v)).sum).eval c =
      hypercubeSum v (sp.map (fun pp => ProductPoly.partial_evaluate pp c 0)) := by
  rw [eval_sum_list, List.map_map, hypercubeSum, List.map_map]
  congr 1
  apply List.map_congr_left
  intro pp hpp
  have hne : pp ≠ [] := by
    intro h
    have := hd pp hpp
    rw [h] at this
    simp at this
    omega
  show (roundPoly v pp).eval c = _
  rw [eval_roundPoly hne (hflen pp hpp), reduce_pe_sum hne (hflen pp hpp)]
  rfl

theorem xs_nodup {d : Nat}
    (hchar : ∀ i j : ℕ, i < j → j ≤ d → (i : F) ≠ (j : F)) :
    ((List.range (d + 1)).map (fun i : Nat => (i : F))).Nodup := by
  apply List.Nodup.map_on _ (List.nodup_range _)
  intro i hi j hj hij
  have hi2 : i < d + 1 := List.mem_range.mp hi
  have hj2 : j < d + 1 := List.mem_range.mp hj
  by_contra hne
  rcases Nat.lt_or_ge i j with h | h
  · exact hchar i j h (by omega) hij
  · have : j < i := by omega
    exact hchar j i this (by omega) hij.symm

theorem interp_round {sp : List (ProductPoly F)} {v d : Nat} (hsp : sp ≠ [])
    (hd : ∀ pp ∈ sp, pp.length = d) (hdpos : 1 ≤ d)
    (hflen : ∀ pp ∈ sp, ∀ f ∈ pp, f.length = 2 ^ (v + 1))
    (hchar : ∀ i j : ℕ, i < j → j ≤ d → (i : F) ≠ (j : F)) (c : F) :
    UnivariatePoly.evaluate
        (UnivariatePoly.interpolate
          ((List.range (d + 1)).map (fun i : Nat => (i : F))) (round_g sp)) c =
      ((sp.map (roundPoly v)).sum).eval c := by
  apply UnivariatePoly.interpolate_recovers ((sp.map (roundPoly v)).sum)
    _ _ (xs_nodup hchar)
  · rw [length_round_g hsp hd, List.length_map, List.length_range]
  · rw [List.length_map, List.length_range]
    apply lt_of_le_of_lt (degree_list_sum_le_bound _ (d : ℕ) ?hbound)
    · have h1 : ((d : ℕ) : WithBot ℕ) ⊔ 0 = ((d : ℕ) : WithBot ℕ) := by
        apply sup_eq_left.mpr
        exact_mod_cast Nat.zero_le d
      rw [h1]
      exact_mod_cast Nat.lt_succ_self d
    case hbound =>
      intro p hp
      obtain ⟨pp, hpp, rfl⟩ := List.mem_map.mp hp
      have := degree_roundPoly v pp
      rwa [hd pp hpp] at this
  · intro j hj
    rw [List.length_map, List.length_range] at hj
    rw [MultiLinearPoly.getD_map_range hj]
    exact getD_round_g hsp hd hdpos hflen hj

theorem mleEval_nil {m : MultiLinearPoly F} (h : m.length = 1) :
    mleEval m [] = m.getD 0 0 := by
  rw [mleEval, h]
  simp [lagBasis]

theorem hypercubeSum_zero {sp : List (ProductPoly F)}
    (hflen : ∀ pp ∈ sp, ∀ f ∈ pp, f.length = 2 ^ 0) :
    hypercubeSum 0 sp = productsEvalAt sp [] := by
  rw [hypercubeSum, productsEvalAt]
  congr 1
  apply List.map_congr_left
  intro pp hpp
  rw [pow_zero, Finset.sum_range_one]
  congr 1
  apply List.map_congr_left
  intro m hm
  exact (mleEval_nil (by simpa using hflen pp hpp m hm)).symm

theorem productsEvalAt_cons {sp : List (ProductPoly F)} {v : Nat} {c : F}
    {rs : List F} (hflen : ∀ pp ∈ sp, ∀ f ∈ pp, f.length = 2 ^ (v + 1))
    (hrs : rs.length = v) :
    productsEvalAt (sp.map (fun pp => ProductPoly.partial_evaluate pp c 0)) rs =
      productsEvalAt sp (c :: rs) := by
  rw [productsEvalAt, productsEvalAt, List.map_map]
  congr 1
  apply List.map_congr_left
  intro pp hpp
  show ((ProductPoly.partial_evaluate pp c 0).map (fun m => mleEval m rs)).prod = _
  rw [ProductPoly.partial_evaluate, List.map_map]
  congr 1
  apply List.map_congr_left
  intro m hm
  show mleEval (MultiLinearPoly.partial_evaluate m c 0) rs = mleEval m (c :: rs)
  exact (mleEval_step m c rs (hflen pp hpp m hm) hrs).symm

/-- Completeness invariant of the sum-check round loop: started on any
transcript with the true hypercube sum as the claimed sum, the verifier loop
accepts the prover loop's round polynomials, reproduces its challenges, and
ends with the sum of products of the factor MLEs at those challenges. -/
theorem loop_completeness (E : Env F) {d : Nat} (hdpos : 1 ≤ d)
    (hchar : ∀ i j : ℕ, i < j → j ≤ d → (i : F) ≠ (j : F)) :
    ∀ (v : Nat) (sp : List (ProductPoly F)) (t : Transcript),
      sp ≠ [] → (∀ pp ∈ sp, pp.length = d) →
      (∀ pp ∈ sp, ∀ f ∈ pp, f.length = 2 ^ v) →
      verify_loop E ((List.range (d + 1)).map (fun i : Nat => (i : F)))
          (proof_loop E v sp t).2.2 t (hypercubeSum v sp) =
        some ((proof_loop E v sp t).2.1,
          productsEvalAt sp (proof_loop E v sp t).2.1) := by
  intro v
  induction v with
  | zero =>
    intro sp t hsp hd hflen
    show some ([], hypercubeSum 0 sp) = some ([], productsEvalAt sp [])
    rw [hypercubeSum_zero hflen]
  | succ v ih =>
    intro sp t hsp hd hflen
    rw [proof_loop_succ, verify_loop_cons]
    have hch : (round_g sp).getD 0 0 + (round_g sp).getD 1 0 =
        hypercubeSum (v + 1) sp := check_sum hsp hd hdpos hflen
    rw [if_neg (not_ne_iff.mpr hch)]
    have hnext_ne : round_next E sp t ≠ [] := by simp [round_next, hsp]
    have hnext_d : ∀ pp ∈ round_next E sp t, pp.length = d := by
      intro pp hpp
      obtain ⟨pp0, hpp0, rfl⟩ := List.mem_map.mp hpp
      rw [ProductPoly.partial_evaluate, List.length_map]
      exact hd pp0 hpp0
    have hnext_len : ∀ pp ∈ round_next E sp t, ∀ f ∈ pp, f.length = 2 ^ v := by
      intro pp hpp f hf
      obtain ⟨pp0, hpp0, rfl⟩ := List.mem_map.mp hpp
      obtain ⟨f0, hf0, rfl⟩ := List.mem_map.mp hf
      exact MultiLinearPoly.length_partial_evaluate_zero (hflen pp0 hpp0 f0 hf0) _
    have hclaim2 : UnivariatePoly.evaluate
        (UnivariatePoly.interpolate
          ((List.range (d + 1)).map (fun i : Nat => (i : F))) (round_g sp))
        (round_c E sp t) =
        hypercubeSum v (round_next E sp t) := by
      rw [interp_round hsp hd hdpos hflen hchar, round_next]
      exact spoly_eval_next hsp hd hdpos hflen _
    show (match verify_loop E _ (proof_loop E v (round_next E sp t)
        (round_t2 E sp t)).2.2 (round_t2 E sp t)
        (UnivariatePoly.evaluate (UnivariatePoly.interpolate _ (round_g sp))
          (round_c E sp t)) with
      | some res => some (round_c E sp t :: res.1, res.2)
      | none => none) = _
    rw [hclaim2, ih (round_next E sp t) (round_t2 E sp t) hnext_ne hnext_d hnext_len]
    show some (round_c E sp t :: (proof_loop E v (round_next E sp t)
        (round_t2 E sp t)).2.1, productsEvalAt (round_next E sp t)
        (proof_loop E v (round_next E sp t) (round_t2 E sp t)).2.1) = _
    have hfin : productsEvalAt (round_next E sp t)
        (proof_loop E v (round_next E sp t) (round_t2 E sp t)).2.1 =
        productsEvalAt sp (round_c E sp t ::
          (proof_loop E v (round_next E sp t) (round_t2 E sp t)).2.1) := by
      rw [round_next]
      exact productsEvalAt_cons hflen
        ((proof_loop_lengths E v (round_next E sp t) (round_t2 E sp t)).1)
    rw [hfin]

end PartialSumCheck

/-- C1 (amended).  Sum-check completeness round trip: for every nonempty
list of `ProductPoly`s over `v` variables whose factors all have the same
power-of-two length `2^v` and — the amendment forced by the counterexample —
whose products all consist of the same number `d ≥ 1` of factors,
if the initial claimed sum is the true sum over the Boolean hypercube of the
sum of the elementwise factor products, then `verify (proof …)` completes
without aborting (each round passing the `g(0)+g(1) = S` check), returns
exactly the challenges the prover derived, and its last claimed sum is the
sum of products evaluated (via the factor MLEs) at those challenges; the
proof has `v` rounds. -/
theorem c1_sumcheck_completeness (E : Env F) (sum_poly : List (ProductPoly F))
    (v d : Nat) (S : F) (hne : sum_poly ≠ [])
    (hd : ∀ pp ∈ sum_poly, pp.length = d) (hdpos : 1 ≤ d)
    (hflen : ∀ pp ∈ sum_poly, ∀ f ∈ pp, f.length = 2 ^ v)
    (hchar : ∀ i j : ℕ, i < j → j ≤ d → (i : F) ≠ (j : F))
    (hS : S = PartialSumCheck.hypercubeSum v sum_poly) :
    PartialSumCheck.verify E (PartialSumCheck.proof E sum_poly S) =
      some ⟨(PartialSumCheck.proof E sum_poly S).challenges,
        PartialSumCheck.productsEvalAt sum_poly
          (PartialSumCheck.proof E sum_poly S).challenges⟩ ∧
    (PartialSumCheck.proof E sum_poly S).round_polys.length = v ∧
    (PartialSumCheck.proof E sum_poly S).challenges.length = v := by
  subst hS
  have hppne : sum_poly.headI ≠ [] := by
    have h0 := hd sum_poly.headI (PartialSumCheck.list_headI_mem hne)
    intro hc
    rw [hc] at h0
    simp at h0
    omega
  have hL : ilog2 sum_poly.headI.headI.length = v := by
    rw [hflen sum_poly.headI (PartialSumCheck.list_headI_mem hne)
      sum_poly.headI.headI (PartialSumCheck.list_headI_mem hppne), ilog2_two_pow]
  have hproof : PartialSumCheck.proof E sum_poly
      (PartialSumCheck.hypercubeSum v sum_poly) =
      ⟨(PartialSumCheck.proof_loop E v sum_poly Transcript.new).1,
        PartialSumCheck.hypercubeSum v sum_poly,
        (PartialSumCheck.proof_loop E v sum_poly Transcript.new).2.1,
        (PartialSumCheck.proof_loop E v sum_poly Transcript.new).2.2⟩ := by
    rw [PartialSumCheck.proof, hL]
  rw [hproof]
  have hfs := PartialSumCheck.proof_loop_final_state E d v sum_poly
    Transcript.new hne hd
  have hdeg : ProductPoly.get_degree
      ((PartialSumCheck.proof_loop E v sum_poly Transcript.new).1.headI) = d :=
    hfs.2 _ (PartialSumCheck.list_headI_mem hfs.1)
  refine ⟨?_, (PartialSumCheck.proof_loop_lengths E v sum_poly Transcript.new).2,
    (PartialSumCheck.proof_loop_lengths E v sum_poly Transcript.new).1⟩
  show (match PartialSumCheck.verify_loop E
      ((List.range (ProductPoly.get_degree
        ((PartialSumCheck.proof_loop E v sum_poly Transcript.new).1.headI) + 1)).map
        (fun i : Nat => (i : F)))
      (PartialSumCheck.proof_loop E v sum_poly Transcript.new).2.2 Transcript.new
      (PartialSumCheck.hypercubeSum v sum_poly) with
    | some res => some (⟨res.1, res.2⟩ : PartialSumCheck.SubClaim F)
    | none => none) =
    some ⟨(PartialSumCheck.proof_loop E v sum_poly Transcript.new).2.1,
      PartialSumCheck.productsEvalAt sum_poly
        (PartialSumCheck.proof_loop E v sum_poly Transcript.new).2.1⟩
  rw [hdeg, PartialSumCheck.loop_completeness E hdpos hchar v sum_poly
    Transcript.new hne hd hflen]

end SumCheck

section GKR

variable {F : Type} [Field F] [DecidableEq F]

/-- `usize::is_power_of_two`, fuel-based so the kernel can evaluate it. -/
def isPow2Go : Nat → Nat → Bool
  | 0, _ => false
  | fuel + 1, n =>
    if n = 0 then false
    else if n = 1 then true
    else if n % 2 = 1 then false
    else isPow2Go fuel (n / 2)

/-- `usize::is_power_of_two`. -/
def isPow2 (n : Nat) : Bool := isPow2Go n n

/-- `usize::next_power_of_two`, fuel-based doubling. -/
def nextPow2Go : Nat → Nat → Nat → Nat
  | 0, _, size => size
  | fuel + 1, n, size => if size < n then nextPow2Go fuel n (size * 2) else size

/-- `usize::next_power_of_two`. -/
def next_pow2 (n : Nat) : Nat := nextPow2Go n n 1

/-- `gkr_protocol::GateOp`. -/
inductive GateOp where
  | Add
  | Mul
  deriving DecidableEq

/-- `gkr_protocol::Gate`. -/
structure Gate where
  left : Nat
  right : Nat
  op : GateOp
  output : Nat
  deriving DecidableEq

/-- `gkr_protocol::Layer`. -/
structure Layer where
  gates : List Gate
  deriving DecidableEq

/-- `gkr_protocol::Circuit`. -/
structure Circuit (F : Type) where
  inputs : List F
  layers : List Layer
  deriving DecidableEq

/-- One gate's output value given the current layer's input wires. -/
def gate_eval (current : List F) (g : Gate) : F :=
  match g.op with
  | GateOp.Add => current.getD g.left 0 + current.getD g.right 0
  | GateOp.Mul => current.getD g.left 0 * current.getD g.right 0

/-- One layer of `Circuit::evaluate`: a zero vector of the layer's gate
count, written at each gate's output index in gate order. -/
def eval_layer (current : List F) (l : Layer) : List F :=
  l.gates.foldl (fun next g => next.set g.output (gate_eval current g))
    (List.replicate l.gates.length 0)

/-- `Circuit::evaluate`: inputs first, then each layer's outputs. -/
def Circuit.evaluate (c : Circuit F) : List (List F) :=
  (c.layers.foldl
    (fun st l =>
      let next := eval_layer st.1 l
      (next, st.2 ++ [next]))
    (c.inputs, [c.inputs])).2

/-- `Circuit::layer_i_add_mul`: the `addᵢ`/`mulᵢ` tables of layer
`layer_i` (1-based; the inputs count as layer 0), of length
`2^(output_bits + 2·input_bits)`, indexed `(output ‖ left ‖ right)`. -/
def Circuit.layer_i_add_mul (c : Circuit F) (layer_i : Nat) : List F × List F :=
  let layer := c.layers.getD (layer_i - 1) ⟨[]⟩
  let bits :=
    if layer.gates.length = 1 then (1, 1)
    else if isPow2 layer.gates.length then
      (ilog2 (2 * layer.gates.length), ilog2 layer.gates.length)
    else
      (ilog2 (2 * next_pow2 layer.gates.length), ilog2 (next_pow2 layer.gates.length))
  let input_bits := bits.1
  let output_bits := bits.2
  let n_bits := 2 * input_bits + output_bits
  let output_start_index := n_bits - output_bits
  let left_start_index := output_start_index - input_bits
  layer.gates.foldl
    (fun vecs g =>
      let index := (g.output <<< output_start_index) +
        (g.left <<< left_start_index) + g.right
      match g.op with
      | GateOp.Mul => (vecs.1, vecs.2.set index 1)
      | GateOp.Add => (vecs.1.set index 1, vecs.2))
    (List.replicate (2 ^ n_bits) (0 : F), List.replicate (2 ^ n_bits) (0 : F))

/-- The `(α, β)` pair produced by two squeezes from a fresh empty
transcript — a constant of the environment alone. -/
def freshAlphaBeta (E : Env F) : F × F :=
  let sq1 := Transcript.new.squeeze E.thash
  let sq2 := sq1.2.squeeze E.thash
  (E.fromBytes sq1.1, E.fromBytes sq2.1)

/-- `Circuit::gkr_trick` (`src/protocols/src/gkr_2_to_1_trick.rs`): derives
`α, β` from a fresh transcript, partially evaluates the layer's `addᵢ` and
`mulᵢ` tables at the `r_b` and `r_c` halves of the challenges, and returns
the `α·(⋅|r_b) + β·(⋅|r_c)` combinations. -/
def Circuit.gkr_trick (E : Env F) (c : Circuit F) (challenges : List F)
    (index : Nat) : MultiLinearPoly F × MultiLinearPoly F :=
  let sq1 := Transcript.new.squeeze E.thash
  let alpha := E.fromBytes sq1.1
  let sq2 := sq1.2.squeeze E.thash
  let beta := E.fromBytes sq2.1
  let am := c.layer_i_add_mul index
  let mid := challenges.length / 2
  let add_rb := (challenges.take mid).foldl
    (fun acc r => MultiLinearPoly.partial_evaluate acc r 0) am.1
  let mul_rb := (challenges.take mid).foldl
    (fun acc r => MultiLinearPoly.partial_evaluate acc r 0) am.2
  let add_rc := (challenges.drop mid).foldl
    (fun acc r => MultiLinearPoly.partial_evaluate acc r 0) am.1
  let mul_rc := (challenges.drop mid).foldl
    (fun acc r => MultiLinearPoly.partial_evaluate acc r 0) am.2
  (List.zipWith (fun rb_val rc_val => alpha * rb_val + beta * rc_val) add_rb add_rc,
   List.zipWith (fun rb_val rc_val => alpha * rb_val + beta * rc_val) mul_rb mul_rc)

/-- `Circuit::gkr_trick` with the `(α, β)` pair passed in explicitly
(the body of the source function below its two squeezes). -/
def Circuit.gkr_trick_with (c : Circuit F) (ab : F × F) (challenges : List F)
    (index : Nat) : MultiLinearPoly F × MultiLinearPoly F :=
  let am := c.layer_i_add_mul index
  let mid := challenges.length / 2
  let add_rb := (challenges.take mid).foldl
    (fun acc r => MultiLinearPoly.partial_evaluate acc r 0) am.1
  let mul_rb := (challenges.take mid).foldl
    (fun acc r => MultiLinearPoly.partial_evaluate acc r 0) am.2
  let add_rc := (challenges.drop mid).foldl
    (fun acc r => MultiLinearPoly.partial_evaluate acc r 0) am.1
  let mul_rc := (challenges.drop mid).foldl
    (fun acc r => MultiLinearPoly.partial_evaluate acc r 0) am.2
  (List.zipWith (fun rb_val rc_val => ab.1 * rb_val + ab.2 * rc_val) add_rb add_rc,
   List.zipWith (fun rb_val rc_val => ab.1 * rb_val + ab.2 * rc_val) mul_rb mul_rc)

/-- `Circuit::new_claimed_sum` (`src/protocols/src/gkr_2_to_1_trick.rs`):
derives `α, β` from a fresh transcript and combines the evaluations of `wᵢ`
at the two challenge halves. -/
def Circuit.new_claimed_sum (E : Env F) (c : Circuit F) (w_i_arr : List F)
    (challenges : List F) : F :=
  let sq1 := Transcript.new.squeeze E.thash
  let alpha := E.fromBytes sq1.1
  let sq2 := sq1.2.squeeze E.thash
  let beta := E.fromBytes sq2.1
  let mid := challenges.length / 2
  let w_i_b := (challenges.take mid).foldl
    (fun acc r => MultiLinearPoly.partial_evaluate acc r 0) w_i_arr
  let w_i_c := (challenges.drop mid).foldl
    (fun acc r => MultiLinearPoly.partial_evaluate acc r 0) w_i_arr
  (List.zipWith (fun b_val c_val => alpha * b_val + beta * c_val) w_i_b w_i_c).sum

/-- The output-layer padding block shared by `Circuit::proof`
(`gkr_sum_check.rs` lines 27–36) and `succinct_proof` (`succinct_gkr.rs`
lines 46–55): a size-1 layer becomes `[w, 0]`, a power-of-two layer is kept,
anything else is zero-padded to the next power of two. -/
def padW0 (w0 : List F) : List F :=
  if w0.length = 1 then [w0.getD 0 0, 0]
  else if isPow2 w0.length then w0
  else w0 ++ List.replicate (next_pow2 w0.length - w0.length) 0

/-- The padded output layer `w_0_arr` of the evaluated circuit (also the
`output_layer` field of the GKR proof). -/
def gkrOutputLayer (c : Circuit F) : List F :=
  padW0 ((c.evaluate).getD (c.evaluate.length - 1) [])

/-- `n` consecutive transcript squeezes mapped to field elements (the `for _
in 0..w_0_len` loop of `succinct_proof`). -/
def squeeze_n (E : Env F) : Nat → Transcript → List F
  | 0, _ => []
  | n + 1, t =>
    let sq := t.squeeze E.thash
    E.fromBytes sq.1 :: squeeze_n E n sq.2

/-- Initial-round fragment of `Circuit::proof` (`gkr_sum_check.rs` lines
24–44) on the padded output layer: absorb it, squeeze a single challenge
`r_a`, and set the initial claimed sum to `partial_evaluate(w₀, r_a, 0)[0]`. -/
def gkrProofInitialW (E : Env F) (w_0_arr : List F) : F × F :=
  let sq := (Transcript.new.absorb (MultiLinearPoly.to_bytes E w_0_arr)).squeeze E.thash
  let r_a := E.fromBytes sq.1
  (r_a, (MultiLinearPoly.partial_evaluate w_0_arr r_a 0).getD 0 0)

/-- Initial-round fragment of `Circuit::proof` starting from the circuit. -/
def gkrProofInitial (E : Env F) (c : Circuit F) : F × F :=
  gkrProofInitialW E (gkrOutputLayer c)

/-- Initial-round fragment of `Circuit::verify` (`gkr_sum_check.rs` lines
145–150): absorb the proof's output layer, squeeze one `r_a`, one partial
evaluation for the initial claimed sum. -/
def gkrVerifyInitial (E : Env F) (output_layer : List F) : F × F :=
  let sq := (Transcript.new.absorb (MultiLinearPoly.to_bytes E output_layer)).squeeze E.thash
  let r_a := E.fromBytes sq.1
  (r_a, (MultiLinearPoly.partial_evaluate output_layer r_a 0).getD 0 0)

/-- Initial-round fragment of `succinct_proof` (`succinct_gkr.rs` lines
46–68) on the padded output layer: absorb it, squeeze one challenge per
output variable, claimed sum `w₀(r_a_challenges)`. -/
def succinctProofInitialW (E : Env F) (w_0_arr : List F) : List F × F :=
  let t1 := Transcript.new.absorb (MultiLinearPoly.to_bytes E w_0_arr)
  let r_a_challenges := squeeze_n E (ilog2 w_0_arr.length) t1
  (r_a_challenges,
    ((MultiLinearPoly.evaluate w_0_arr r_a_challenges).getD []).getD 0 0)

/-- Initial-round fragment of `succinct_proof` starting from the circuit. -/
def succinctProofInitial (E : Env F) (c : Circuit F) : List F × F :=
  succinctProofInitialW E (gkrOutputLayer c)

/-- The single `r_a` squeezed by `succinct_verify` (`succinct_gkr.rs` lines
254–256). -/
def succinctVerifyRA (E : Env F) (output_layer : List F) : F :=
  E.fromBytes ((Transcript.new.absorb
    (MultiLinearPoly.to_bytes E output_layer)).squeeze E.thash).1

theorem length_squeeze_n (E : Env F) :
    ∀ (n : Nat) (t : Transcript), (squeeze_n E n t).length = n := by
  intro n
  induction n with
  | zero => intro t; rfl
  | succ n ih => intro t; simp [squeeze_n, ih]

end GKR

/-! ### A concrete kernel-computable field and toy environments

`F17` is the prime field with 17 elements built directly on `Fin 17` with an
inverse the kernel can evaluate (`a⁻¹ = a^15`); the `Field` axioms are
discharged by `decide`.  The toy environments instantiate the external
capabilities (hashes, byte encodings) with small concrete functions so that
witnesses and counterexamples can be checked by evaluation; the generic
theorems hold for every environment, so any concrete instantiation is a
valid witness. -/

def F17 : Type := Fin 17

instance : Add F17 := inferInstanceAs (Add (Fin 17))

instance : Mul F17 := inferInstanceAs (Mul (Fin 17))

instance : Neg F17 := inferInstanceAs (Neg (Fin 17))

instance : Zero F17 := inferInstanceAs (Zero (Fin 17))

instance : One F17 := inferInstanceAs (One (Fin 17))

instance : DecidableEq F17 := inferInstanceAs (DecidableEq (Fin 17))

instance : Fintype F17 := inferInstanceAs (Fintype (Fin 17))

instance : Inv F17 :=
  ⟨fun a => a * a * a * a * a * a * a * a * a * a * a * a * a * a * a⟩

instance : Field F17 :=
  Field.ofMinimalAxioms F17 (by decide) (by decide) (by decide) (by decide)
    (by decide) (by decide) (by decide) (by decide) (by decide) ⟨0, 1, by decide⟩

/-- The canonical integer representative of an `F17` element. -/
def F17.toNat (a : F17) : Nat := (show Fin 17 from a).val

/-- A concrete toy environment over `F17`. -/
def envF17 : Env F17 where
  thash := fun bs => [(bs.sum + bs.length + 3) % 251]
  mhash := fun bs => (bs.sum * 2 + 1) % 251 :: bs
  fromBytes := fun bs => ((bs.foldl (fun a b => a * 256 + b) 0 % 17 : ℕ) : F17)
  toBytes := fun x => [x.toNat]
  toDecimal := fun x => [x.toNat]
  intRepr := fun x => x.toNat
  rou := fun n => if n = 8 then 2 else if n = 4 then 4 else if n = 2 then 16 else 1

/-- A concrete toy environment over `ZMod p`. -/
def envZ (p : ℕ) [NeZero p] : Env (ZMod p) where
  thash := fun bs => [(bs.sum + bs.length + 3) % 251]
  mhash := fun bs => (bs.sum * 2 + 1) % 251 :: bs
  fromBytes := fun bs => ((bs.foldl (fun a b => a * 256 + b) 0 : ℕ) : ZMod p)
  toBytes := fun x => [x.val]
  toDecimal := fun x => [x.val]
  intRepr := fun x => x.val
  rou := fun _ => 1

/-- The E1/E3 table. -/
def e3Table : List (ZMod 10007) :=
  [0, 0, 0, 0, 0, 4, 0, 4, 0, 0, 3, 3, 5, 9, 8, 12]

/-- Witness for C1 at the E3 instance: one product with the single 16-entry
factor, claimed sum 48; the proof has 4 rounds and the verifier accepts,
returning the prover's challenges and the MLE value at them. -/
theorem c1_sumcheck_completeness_witness :
    PartialSumCheck.verify (envZ 10007)
        (PartialSumCheck.proof (envZ 10007) [[e3Table]] 48) =
      some ⟨(PartialSumCheck.proof (envZ 10007) [[e3Table]] 48).challenges,
        PartialSumCheck.productsEvalAt [[e3Table]]
          (PartialSumCheck.proof (envZ 10007) [[e3Table]] 48).challenges⟩ ∧
    (PartialSumCheck.proof (envZ 10007) [[e3Table]] 48).round_polys.length = 4 := by
  have h := c1_sumcheck_completeness (envZ 10007) [[e3Table]] 4 1 48
    (by decide) (by decide) (by norm_num) (by decide)
    (by
      intro i j hij hj
      have hj1 : j = 1 := by omega
      have hi0 : i = 0 := by omega
      subst hj1
      subst hi0
      decide)
    (by decide)
  exact ⟨h.1, h.2.1⟩

/-- First factor table of the C1 counterexample. -/
def cxA : List F17 := [1, 2, 3, 4]

/-- Second product's first factor. -/
def cxB : List F17 := [5, 6, 7, 8]

/-- Second product's second factor. -/
def cxC : List F17 := [2, 0, 1, 3]

section ClaimC6

variable {F : Type} [Field F] [DecidableEq F]

/-- C6.  The 2-to-1 reduction coefficients are global constants: both
`Circuit::gkr_trick` and `Circuit::new_claimed_sum` construct a fresh empty
transcript and squeeze `α` then `β` from it, so for every circuit, every
challenge vector and every layer index the derived `(α, β)` pair is the
fixed environment constant `freshAlphaBeta E`, independent of all previously
absorbed protocol data (two runs with any two different inputs use the
identical pair); consequently the prover's new claimed sum is
`α·wᵢ(r_b) + β·wᵢ(r_c)` with those same constants. -/
theorem c6_two_to_one_constants (E : Env F) (c₁ c₂ : Circuit F)
    (ch₁ ch₂ : List F) (i₁ : Nat) (w : List F) {m : Nat}
    (hw : w.length = 2 ^ m) (hch : ch₂.length = 2 * m) :
    Circuit.gkr_trick E c₁ ch₁ i₁ =
      Circuit.gkr_trick_with c₁ (freshAlphaBeta E) ch₁ i₁ ∧
    Circuit.new_claimed_sum E c₂ w ch₂ =
      (freshAlphaBeta E).1 * mleEval w (ch₂.take m) +
        (freshAlphaBeta E).2 * mleEval w (ch₂.drop m) := by
  constructor
  · rfl
  · have hmid : ch₂.length / 2 = m := by omega
    show (List.zipWith
        (fun b_val c_val => (freshAlphaBeta E).1 * b_val +
          (freshAlphaBeta E).2 * c_val)
        (MultiLinearPoly.evaluate_loop w (ch₂.take (ch₂.length / 2)))
        (MultiLinearPoly.evaluate_loop w (ch₂.drop (ch₂.length / 2)))).sum = _
    rw [hmid]
    have htake : (ch₂.take m).length = m := by
      rw [List.length_take]
      omega
    have hdrop : (ch₂.drop m).length = m := by
      rw [List.length_drop]
      omega
    rw [evaluate_loop_eq_mle (ch₂.take m) w (by rw [htake]; exact hw),
      evaluate_loop_eq_mle (ch₂.drop m) w (by rw [hdrop]; exact hw)]
    simp

end ClaimC6

/-- Witness for C6: a concrete circuit, challenge vector, layer index and
`w` table. -/
theorem c6_two_to_one_constants_witness :
    (([3, 12] : List F17).length = 2 ^ 1 ∧ ([2, 3] : List F17).length = 2 * 1) ∧
    (Circuit.gkr_trick envF17 ⟨[1, 2], [⟨[⟨0, 1, GateOp.Add, 0⟩]⟩]⟩ [2, 3] 1 =
      Circuit.gkr_trick_with ⟨[1, 2], [⟨[⟨0, 1, GateOp.Add, 0⟩]⟩]⟩
        (freshAlphaBeta envF17) [2, 3] 1 ∧
    Circuit.new_claimed_sum envF17 ⟨[1, 2], [⟨[⟨0, 1, GateOp.Add, 0⟩]⟩]⟩
        [3, 12] [2, 3] =
      (freshAlphaBeta envF17).1 * mleEval ([3, 12] : List F17) ([2, 3].take 1) +
        (freshAlphaBeta envF17).2 * mleEval ([3, 12] : List F17) ([2, 3].drop 1)) :=
  ⟨⟨by decide, by decide⟩,
    c6_two_to_one_constants envF17 _ _ [2, 3] [2, 3] 1 [3, 12]
      (by decide) (by decide)⟩

section ClaimC5

variable {F : Type} [Field F] [DecidableEq F]

/-- C5 (amended).  GKR initial round: both provers pad the evaluated
circuit's output layer to a power of two with zeros (a size-1 layer becomes
`[w, 0]`) and absorb the padded table.  `Circuit::proof` then squeezes a
single challenge scalar — not one per output-layer variable — and its
verifier replays the identical absorb and single squeeze, deriving the same
`r_a` and initial claimed sum for every circuit.  `succinct_proof` squeezes
one challenge per output-layer variable; whenever the padded output layer
has exactly one variable (length 2) its challenge vector is `[r_a]`, its
initial claimed sum coincides with `Circuit::proof`'s and equals the output
layer's MLE at `r_a`. -/
theorem c5_gkr_initial_round (E : Env F) (c : Circuit F) :
    (∀ w0 : List F, w0.length = 1 → padW0 w0 = [w0.getD 0 0, 0]) ∧
    gkrVerifyInitial E (gkrOutputLayer c) = gkrProofInitial E c ∧
    (succinctProofInitial E c).1.length = ilog2 (gkrOutputLayer c).length ∧
    ((gkrOutputLayer c).length = 2 →
      (succinctProofInitial E c).1 = [(gkrProofInitial E c).1] ∧
      (succinctProofInitial E c).2 = (gkrProofInitial E c).2 ∧
      (succinctProofInitial E c).2 =
        mleEval (gkrOutputLayer c) [(gkrProofInitial E c).1]) := by
  refine ⟨?_, rfl, length_squeeze_n E _ _, ?_⟩
  · intro w0 h
    simp [padW0, h]
  · intro h2
    show (succinctProofInitialW E (gkrOutputLayer c)).1 =
        [(gkrProofInitialW E (gkrOutputLayer c)).1] ∧
      (succinctProofInitialW E (gkrOutputLayer c)).2 =
        (gkrProofInitialW E (gkrOutputLayer c)).2 ∧
      (succinctProofInitialW E (gkrOutputLayer c)).2 =
        mleEval (gkrOutputLayer c) [(gkrProofInitialW E (gkrOutputLayer c)).1]
    generalize hL : gkrOutputLayer c = L at h2 ⊢
    have hlog : ilog2 L.length = 1 := by rw [h2]; decide
    have hras : (succinctProofInitialW E L).1 = [(gkrProofInitialW E L).1] := by
      show squeeze_n E (ilog2 L.length)
        (Transcript.new.absorb (MultiLinearPoly.to_bytes E L)) = _
      rw [hlog]
      rfl
    have hvc : MultiLinearPoly.variable_count L = 1 := by
      show ilog2 L.length = 1
      exact hlog
    have heval : MultiLinearPoly.evaluate L [(gkrProofInitialW E L).1] =
        some (MultiLinearPoly.evaluate_loop L [(gkrProofInitialW E L).1]) := by
      rw [MultiLinearPoly.evaluate, hvc]
      simp
    refine ⟨hras, ?_, ?_⟩
    · show ((MultiLinearPoly.evaluate L (succinctProofInitialW E L).1).getD []).getD 0 0 = _
      rw [hras, heval]
      rfl
    · show ((MultiLinearPoly.evaluate L (succinctProofInitialW E L).1).getD []).getD 0 0 = _
      rw [hras, heval]
      show (MultiLinearPoly.evaluate_loop L [(gkrProofInitialW E L).1]).getD 0 0 = _
      rw [evaluate_loop_eq_mle [(gkrProofInitialW E L).1] L (by rw [h2]; rfl)]
      rfl

end ClaimC5

/-- Witness for C5 at a circuit with a single-gate output layer. -/
theorem c5_gkr_initial_round_witness :
    ((gkrOutputLayer (⟨[1, 2], [⟨[⟨0, 1, GateOp.Add, 0⟩]⟩]⟩ : Circuit F17)).length = 2) ∧
    (gkrVerifyInitial envF17
        (gkrOutputLayer (⟨[1, 2], [⟨[⟨0, 1, GateOp.Add, 0⟩]⟩]⟩ : Circuit F17)) =
      gkrProofInitial envF17 ⟨[1, 2], [⟨[⟨0, 1, GateOp.Add, 0⟩]⟩]⟩ ∧
    (succinctProofInitial envF17 (⟨[1, 2], [⟨[⟨0, 1, GateOp.Add, 0⟩]⟩]⟩ : Circuit F17)).1 =
      [(gkrProofInitial envF17 ⟨[1, 2], [⟨[⟨0, 1, GateOp.Add, 0⟩]⟩]⟩).1]) := by
  have h := c5_gkr_initial_round envF17
    (⟨[1, 2], [⟨[⟨0, 1, GateOp.Add, 0⟩]⟩]⟩ : Circuit F17)
  exact ⟨by decide, h.2.1, (h.2.2.2 (by decide)).1⟩

/-- The E4-style circuit whose single layer has four gates, so its output
layer `[3, 12, 30, 56]` has two variables. -/
def ccx5 : Circuit (ZMod 10007) :=
  ⟨[1, 2, 3, 4, 5, 6, 7, 8],
   [⟨[⟨0, 1, GateOp.Add, 0⟩, ⟨2, 3, GateOp.Mul, 1⟩,
      ⟨4, 5, GateOp.Mul, 2⟩, ⟨6, 7, GateOp.Mul, 3⟩]⟩]⟩

/-- Counterexample to C5 as stated: on a circuit whose padded output layer
has two variables, `succinct_proof` squeezes two challenges while the
verifier derives a single one (so they do not agree), and `Circuit::proof`'s
initial claimed sum is not `w₀` evaluated at the per-variable challenge
vector. -/
theorem c5_gkr_initial_round_counterexample :
    (gkrOutputLayer ccx5).length = 4 ∧
    (succinctProofInitial (envZ 10007) ccx5).1.length = 2 ∧
    (succinctProofInitial (envZ 10007) ccx5).1 ≠
      [succinctVerifyRA (envZ 10007) (gkrOutputLayer ccx5)] ∧
    (gkrProofInitial (envZ 10007) ccx5).2 ≠
      mleEval (gkrOutputLayer ccx5) (succinctProofInitial (envZ 10007) ccx5).1 :=
  ⟨by decide, by decide, by decide, by decide⟩

/-- Counterexample to C1 as stated: the two products have factors of the
same power-of-two length 4 = 2², and the initial claimed sum is the true
hypercube sum, but the products have different factor counts (1 and 2);
`verify (proof …)` aborts (round-sum check fails), contradicting the claim
that it completes without aborting. -/
theorem c1_sumcheck_counterexample :
    (∀ pp ∈ ([[cxA], [cxB, cxC]] : List (ProductPoly F17)),
      ∀ f ∈ pp, f.length = 2 ^ 2) ∧
    PartialSumCheck.verify envF17
      (PartialSumCheck.proof envF17 [[cxA], [cxB, cxC]]
        (PartialSumCheck.hypercubeSum 2 [[cxA], [cxB, cxC]])) = none :=
  ⟨by decide, by decide⟩

section Merkle

/-- `MerkleTree { layers: Vec<Vec<Vec<u8>>> }`
(`src/protocols/src/merkle_tree.rs`): layer 0 is the leaf hashes, the last
layer holds the root. -/
structure MerkleTree where
  layers : List (List (List Nat))

/-- `MerkleProof { siblings: Vec<Vec<u8>> }`. -/
structure MerkleProof where
  siblings : List (List Nat)

/-- One parent layer of `MerkleTree::new`: pairwise `H(L ++ R)`; an unpaired
odd tail node is hashed with itself. -/
def layer_step (H : List Nat → List Nat) : List (List Nat) → List (List Nat)
  | [] => []
  | [x] => [H (x ++ x)]
  | x :: y :: rest => H (x ++ y) :: layer_step H rest

theorem length_layer_step (H : List Nat → List Nat) :
    ∀ l : List (List Nat), (layer_step H l).length = (l.length + 1) / 2 := by
  intro l
  induction l using layer_step.induct H with
  | case1 => rfl
  | case2 x => simp [layer_step]
  | case3 x y rest ih =>
    show (layer_step H rest).length + 1 = _
    rw [ih]
    simp only [List.length_cons]
    omega

/-- The while-loop of `MerkleTree::new` with explicit fuel (each pass at
least halves the layer, so `l.length` passes always suffice): stack layers
until one of length `≤ 1` remains. -/
def build_layersGo (H : List Nat → List Nat) :
    Nat → List (List Nat) → List (List (List Nat))
  | 0, l => [l]
  | fuel + 1, l =>
    if l.length ≤ 1 then [l] else l :: build_layersGo H fuel (layer_step H l)

/-- The while-loop of `MerkleTree::new`: stack layers until one of length
`≤ 1` remains. -/
def build_layers (H : List Nat → List Nat) (l : List (List Nat)) :
    List (List (List Nat)) :=
  build_layersGo H l.length l

theorem build_layersGo_succ (H : List Nat → List Nat) (f : Nat)
    (l : List (List Nat)) :
    build_layersGo H (f + 1) l =
      if l.length ≤ 1 then [l] else l :: build_layersGo H f (layer_step H l) :=
  rfl

theorem build_layersGo_irrel (H : List Nat → List Nat) :
    ∀ (f1 f2 : Nat) (l : List (List Nat)), l.length ≤ f1 + 1 →
      l.length ≤ f2 + 1 → build_layersGo H f1 l = build_layersGo H f2 l := by
  intro f1
  induction f1 with
  | zero =>
    intro f2 l h1 h2
    match f2 with
    | 0 => rfl
    | g + 1 =>
      rw [build_layersGo_succ, if_pos (by omega)]
      rfl
  | succ f ih =>
    intro f2 l h1 h2
    match f2 with
    | 0 =>
      rw [build_layersGo_succ, if_pos (by omega)]
      rfl
    | g + 1 =>
      rw [build_layersGo_succ, build_layersGo_succ]
      by_cases hl : l.length ≤ 1
      · rw [if_pos hl, if_pos hl]
      · rw [if_neg hl, if_neg hl]
        have hstep := length_layer_step H l
        rw [ih g (layer_step H l) (by omega) (by omega)]

theorem build_layers_eq (H : List Nat → List Nat) (l : List (List Nat)) :
    build_layers H l =
      if l.length ≤ 1 then [l] else l :: build_layers H (layer_step H l) := by
  have key : ∀ (f : Nat) (l : List (List Nat)), l.length ≤ f + 1 →
      build_layersGo H f l =
        if l.length ≤ 1 then [l] else l :: build_layers H (layer_step H l) := by
    intro f l hf
    match f with
    | 0 =>
      rw [if_pos (by omega)]
      rfl
    | g + 1 =>
      rw [build_layersGo_succ]
      by_cases hl : l.length ≤ 1
      · rw [if_pos hl, if_pos hl]
      · rw [if_neg hl, if_neg hl]
        have hstep := length_layer_step H l
        show _ = l :: build_layersGo H (layer_step H l).length (layer_step H l)
        rw [build_layersGo_irrel H g (layer_step H l).length (layer_step H l)
          (by omega) (by omega)]
  exact key l.length l (by omega)

/-- `MerkleTree::new`. -/
def MerkleTree.new (H : List Nat → List Nat) (data : List (List Nat)) :
    MerkleTree :=
  let leaves := data.map H
  if leaves.isEmpty then ⟨[]⟩ else ⟨build_layers H leaves⟩

/-- `MerkleTree::root`. -/
def MerkleTree.root (t : MerkleTree) : Option (List Nat) :=
  t.layers.getLast?.bind (fun layer => layer.head?)

/-- The sibling-collection loop of `MerkleTree::generate_proof` over all
layers but the last. -/
def proof_siblings : List (List (List Nat)) → Nat → List (List Nat)
  | [], _ => []
  | layer :: rest, current_index =>
    let sibling_index := if current_index % 2 = 0 then current_index + 1
      else current_index - 1
    let sibling_hash := if sibling_index ≥ layer.length
      then layer.getD current_index [] else layer.getD sibling_index []
    sibling_hash :: proof_siblings rest (current_index / 2)

/-- `MerkleTree::generate_proof`: find the leaf hash in layer 0 (`none` when
absent) and record the sibling at every level. -/
def MerkleTree.generate_proof (H : List Nat → List Nat) (t : MerkleTree)
    (leaf : List Nat) : Option MerkleProof :=
  match (t.layers.getD 0 []).findIdx? (fun x => x == H leaf) with
  | none => none
  | some index =>
    if t.layers.isEmpty ∨ index ≥ (t.layers.getD 0 []).length then none
    else some ⟨proof_siblings (t.layers.take (t.layers.length - 1)) index⟩

/-- The recomputation loop of `MerkleTree::verify_proof`: fold the siblings
upward, concatenation order decided by the index parity. -/
def fold_path (H : List Nat → List Nat) :
    List Nat → Nat → List (List Nat) → List Nat
  | current, _, [] => current
  | current, idx, sibling :: rest =>
    fold_path H
      (H (if idx % 2 = 0 then current ++ sibling else sibling ++ current))
      (idx / 2) rest

/-- `MerkleTree::verify_proof`. -/
def MerkleTree.verify_proof (H : List Nat → List Nat) (t : MerkleTree)
    (leaf_data : List Nat) (proof : MerkleProof) : Bool :=
  match (t.layers.getD 0 []).findIdx? (fun x => x == H leaf_data) with
  | none => false
  | some current_index =>
    match t.root with
    | none => false
    | some root => fold_path H (H leaf_data) current_index proof.siblings == root

theorem build_layers_ne_nil (H : List Nat → List Nat) (l : List (List Nat)) :
    build_layers H l ≠ [] := by
  rw [build_layers_eq]
  split <;> simp

theorem build_layers_head (H : List Nat → List Nat) (l : List (List Nat)) :
    (build_layers H l).getD 0 [] = l := by
  rw [build_layers_eq]
  split <;> rfl

theorem getD_layer_step (H : List Nat → List Nat) :
    ∀ (j : Nat) (l : List (List Nat)), 2 * j < l.length →
      (layer_step H l).getD j [] =
        if 2 * j + 1 < l.length
        then H (l.getD (2 * j) [] ++ l.getD (2 * j + 1) [])
        else H (l.getD (2 * j) [] ++ l.getD (2 * j) []) := by
  intro j
  induction j with
  | zero =>
    intro l hl
    match l with
    | [] => simp at hl
    | [x] =>
      show H (x ++ x) = _
      rw [if_neg (by simp)]
      simp
    | x :: y :: rest =>
      show H (x ++ y) = _
      rw [if_pos (by simp)]
      simp
  | succ j ih =>
    intro l hl
    match l with
    | [] => simp at hl
    | [x] => simp at hl
    | x :: y :: rest =>
      show (layer_step H rest).getD j [] = _
      have hrest : 2 * j < rest.length := by
        simp only [List.length_cons] at hl
        omega
      rw [ih rest hrest]
      have he1 : 2 * (j + 1) = 2 * j + 1 + 1 := by omega
      rw [he1]
      simp only [List.length_cons, List.getD_cons_succ]
      by_cases hc : 2 * j + 1 < rest.length
      · rw [if_pos hc, if_pos (by omega)]
      · rw [if_neg hc, if_neg (by omega)]

/-- One verification step from level `l` at index `idx` lands on the parent
layer's entry at `idx / 2`, for the sibling recorded by `generate_proof`. -/
theorem fold_step (H : List Nat → List Nat) (l : List (List Nat)) (idx : Nat)
    (hidx : idx < l.length) :
    H (if idx % 2 = 0
        then l.getD idx [] ++ (if (if idx % 2 = 0 then idx + 1 else idx - 1) ≥ l.length
          then l.getD idx [] else l.getD (if idx % 2 = 0 then idx + 1 else idx - 1) [])
        else (if (if idx % 2 = 0 then idx + 1 else idx - 1) ≥ l.length
          then l.getD idx [] else l.getD (if idx % 2 = 0 then idx + 1 else idx - 1) [])
          ++ l.getD idx []) =
      (layer_step H l).getD (idx / 2) [] := by
  have hj : 2 * (idx / 2) < l.length := by omega
  rw [getD_layer_step H (idx / 2) l hj]
  rcases Nat.even_or_odd idx with he | ho
  · have h0 : idx % 2 = 0 := Nat.even_iff.mp he
    have hidx2 : 2 * (idx / 2) = idx := by omega
    rw [if_pos h0, if_pos h0, hidx2]
    by_cases hlast : idx + 1 ≥ l.length
    · rw [if_pos hlast, if_neg (by omega)]
    · rw [if_neg hlast, if_pos (by omega)]
  · have h1 : idx % 2 = 1 := Nat.odd_iff.mp ho
    have hne : ¬ idx % 2 = 0 := by omega
    have hidx2 : 2 * (idx / 2) = idx - 1 := by omega
    have hidx3 : 2 * (idx / 2) + 1 = idx := by omega
    rw [if_neg hne, if_neg hne, hidx3, hidx2]
    rw [if_neg (by omega), if_pos hidx]

/-- Folding the generated siblings from any leaf position reaches the root
entry of the built layer tower. -/
theorem fold_build (H : List Nat → List Nat) :
    ∀ (n : Nat) (l : List (List Nat)), l.length ≤ n → l ≠ [] →
    ∀ idx, idx < l.length →
      fold_path H (l.getD idx []) idx
        (proof_siblings ((build_layers H l).take ((build_layers H l).length - 1))
          idx) =
      ((build_layers H l).getLastD []).getD 0 [] := by
  intro n
  induction n with
  | zero =>
    intro l hn hne
    have : l = [] := by
      cases l with
      | nil => rfl
      | cons a t => simp at hn
    exact absurd this hne
  | succ n ih =>
    intro l hn hne idx hidx
    by_cases h1 : l.length ≤ 1
    · have hb : build_layers H l = [l] := by rw [build_layers_eq, if_pos h1]
      rw [hb]
      show fold_path H (l.getD idx []) idx (proof_siblings [] idx) = l.getD 0 []
      have : idx = 0 := by omega
      subst this
      rfl
    · have hb : build_layers H l = l :: build_layers H (layer_step H l) := by
        rw [build_layers_eq, if_neg h1]
      rw [hb]
      have hbne := build_layers_ne_nil H (layer_step H l)
      have hlen : (l :: build_layers H (layer_step H l)).length - 1 =
          (build_layers H (layer_step H l)).length := by simp
      rw [hlen]
      have htake : (l :: build_layers H (layer_step H l)).take
          (build_layers H (layer_step H l)).length =
          l :: (build_layers H (layer_step H l)).take
            ((build_layers H (layer_step H l)).length - 1) := by
        match hq : build_layers H (layer_step H l) with
        | [] => exact absurd hq hbne
        | b :: bs => simp
      rw [htake]
      show fold_path H
        (H (if idx % 2 = 0 then l.getD idx [] ++ _ else _ ++ l.getD idx []))
        (idx / 2) _ = _
      rw [fold_step H l idx hidx]
      have hstep_ne : layer_step H l ≠ [] := by
        have := length_layer_step H l
        intro hc
        rw [hc] at this
        simp at this
        omega
      have hstep_len : (layer_step H l).length ≤ n := by
        rw [length_layer_step]
        omega
      have hidx2 : idx / 2 < (layer_step H l).length := by
        rw [length_layer_step]
        omega
      have := ih (layer_step H l) hstep_len hstep_ne (idx / 2) hidx2
      rw [this]
      show _ = ((l :: build_layers H (layer_step H l)).getLastD []).getD 0 []
      match hq : build_layers H (layer_step H l) with
      | [] => exact absurd hq hbne
      | b :: bs => simp

theorem getLastD_irrel {α : Type} {l : List α} (hne : l ≠ []) (d d2 : α) :
    l.getLastD d = l.getLastD d2 := by
  rw [List.getLastD_eq_getLast?, List.getLastD_eq_getLast?,
    List.getLast?_eq_getLast l hne]
  rfl

theorem build_layers_last_ne_nil (H : List Nat → List Nat) :
    ∀ (n : Nat) (l : List (List Nat)), l.length ≤ n → l ≠ [] →
      (build_layers H l).getLastD [] ≠ [] := by
  intro n
  induction n with
  | zero =>
    intro l hn hne
    cases l with
    | nil => exact absurd rfl hne
    | cons a t => simp at hn
  | succ n ih =>
    intro l hn hne
    by_cases h1 : l.length ≤ 1
    · rw [build_layers_eq, if_pos h1]
      simpa using hne
    · rw [build_layers_eq, if_neg h1]
      have hbne := build_layers_ne_nil H (layer_step H l)
      have hstep_ne : layer_step H l ≠ [] := by
        have hls := length_layer_step H l
        intro hc
        rw [hc] at hls
        simp at hls
        omega
      have hstep_len : (layer_step H l).length ≤ n := by
        rw [length_layer_step]
        omega
      have hrec := ih (layer_step H l) hstep_len hstep_ne
      rw [List.getLastD_cons, getLastD_irrel hbne l []]
      exact hrec

/-- C10.  Merkle membership round trip: for every hash function, every
non-empty sequence of byte-string leaves (odd layers duplicate their tail
node) and every leaf of the sequence, `generate_proof` returns a proof and
`verify_proof` recomputes the stored root and accepts. -/
theorem c10_merkle_round_trip (H : List Nat → List Nat)
    (data : List (List Nat)) (hne : data ≠ []) (leaf : List Nat)
    (hmem : leaf ∈ data) :
    ∃ prf, (MerkleTree.new H data).generate_proof H leaf = some prf ∧
      (MerkleTree.new H data).verify_proof H leaf prf = true := by
  have hlne : data.map H ≠ [] := by simpa using hne
  have htree : MerkleTree.new H data = ⟨build_layers H (data.map H)⟩ := by
    rw [MerkleTree.new]
    simp only [List.isEmpty_iff]
    rw [if_neg hlne]
  have hmemh : H leaf ∈ data.map H := List.mem_map_of_mem H hmem
  obtain ⟨idx, hsome⟩ : ∃ idx,
      (data.map H).findIdx? (fun x => x == H leaf) = some idx := by
    match hq : (data.map H).findIdx? (fun x => x == H leaf) with
    | some i => exact ⟨i, rfl⟩
    | none =>
      have := List.findIdx?_eq_none_iff.mp hq (H leaf) hmemh
      simp at this
  obtain ⟨hidx, hfi⟩ := List.findIdx?_eq_some_iff_findIdx_eq.mp hsome
  have hval : (data.map H).getD idx [] = H leaf := by
    have hp : (fun x => x == H leaf) ((data.map H).get ⟨idx, hidx⟩) = true := by
      have := @List.findIdx_getElem _ (fun x => x == H leaf) (data.map H)
        (by rw [hfi]; exact hidx)
      simpa [hfi] using this
    rw [List.getD_eq_getElem _ _ hidx]
    simpa using hp
  have hhead : (build_layers H (data.map H)).getD 0 [] = data.map H :=
    build_layers_head H (data.map H)
  have hfind : ((build_layers H (data.map H)).getD 0 []).findIdx?
      (fun x => x == H leaf) = some idx := by rw [hhead]; exact hsome
  have hbne := build_layers_ne_nil H (data.map H)
  have hlast_ne := build_layers_last_ne_nil H (data.map H).length (data.map H)
    le_rfl hlne
  -- the root is the head of the last layer
  have hroot : (MerkleTree.mk (build_layers H (data.map H))).root =
      some (((build_layers H (data.map H)).getLastD []).getD 0 []) := by
    rw [MerkleTree.root]
    have h1 : (build_layers H (data.map H)).getLast? =
        some ((build_layers H (data.map H)).getLastD []) := by
      rw [List.getLastD_eq_getLast?]
      match hq : (build_layers H (data.map H)).getLast? with
      | some x => rfl
      | none => exact absurd (List.getLast?_eq_none_iff.mp hq) hbne
    rw [h1]
    show ((build_layers H (data.map H)).getLastD []).head? = _
    match hq : (build_layers H (data.map H)).getLastD [] with
    | [] => exact absurd hq hlast_ne
    | x :: xs => rfl
  refine ⟨MerkleProof.mk (proof_siblings ((build_layers H (data.map H)).take
    ((build_layers H (data.map H)).length - 1)) idx), ?_, ?_⟩
  · rw [htree, MerkleTree.generate_proof]
    show (match ((build_layers H (data.map H)).getD 0 []).findIdx?
        (fun x => x == H leaf) with
      | none => none
      | some index =>
        if (build_layers H (data.map H)).isEmpty ∨
            index ≥ ((build_layers H (data.map H)).getD 0 []).length then none
        else some (MerkleProof.mk (proof_siblings
          ((build_layers H (data.map H)).take
            ((build_layers H (data.map H)).length - 1)) index))) = _
    rw [hfind]
    show (if (build_layers H (data.map H)).isEmpty ∨
        idx ≥ ((build_layers H (data.map H)).getD 0 []).length then none
      else _) = _
    rw [if_neg]
    intro hcon
    rcases hcon with hc | hc
    · exact hbne (List.isEmpty_iff.mp hc)
    · rw [hhead] at hc
      omega
  · rw [htree, MerkleTree.verify_proof]
    show (match ((build_layers H (data.map H)).getD 0 []).findIdx?
        (fun x => x == H leaf) with
      | none => false
      | some current_index =>
        match (MerkleTree.mk (build_layers H (data.map H))).root with
        | none => false
        | some root =>
          fold_path H (H leaf) current_index
            (proof_siblings ((build_layers H (data.map H)).take
              ((build_layers H (data.map H)).length - 1)) idx) == root) = true
    rw [hfind, hroot]
    show (fold_path H (H leaf) idx _ == _) = true
    rw [← hval, fold_build H (data.map H).length (data.map H) le_rfl hlne idx hidx]
    exact beq_self_eq_true _

/-- Witness for C10: three leaves (odd count, exercising the duplicated
tail), membership of the middle leaf. -/
theorem c10_merkle_round_trip_witness :
    (([[1], [2], [3]] : List (List Nat)) ≠ [] ∧ [2] ∈ [[1], [2], [3]]) ∧
    (∃ prf, (MerkleTree.new envF17.mhash [[1], [2], [3]]).generate_proof
        envF17.mhash [2] = some prf ∧
      (MerkleTree.new envF17.mhash [[1], [2], [3]]).verify_proof
        envF17.mhash [2] prf = true) :=
  ⟨⟨by decide, by decide⟩,
    c10_merkle_round_trip envF17.mhash [[1], [2], [3]] (by decide) [2] (by decide)⟩

end Merkle

section FFT

variable {F : Type} [Field F] [DecidableEq F]

/-- Even-indexed entries, as collected by `FastFourierTransform::split_array`
(`fft.rs`) and by `split_poly` (`fri_helper_functions.rs`). -/
def evens {α : Type} : List α → List α
  | [] => []
  | [x] => [x]
  | x :: _ :: rest => x :: evens rest

/-- Odd-indexed entries of `split_array` / `split_poly`. -/
def odds {α : Type} : List α → List α
  | [] => []
  | [_] => []
  | _ :: y :: rest => y :: odds rest

theorem length_evens {α : Type} : ∀ l : List α,
    (evens l).length = (l.length + 1) / 2 := by
  intro l
  induction l using evens.induct with
  | case1 => simp [evens]
  | case2 x => simp [evens]
  | case3 x y rest ih =>
    show (evens rest).length + 1 = _
    rw [ih]
    simp only [List.length_cons]
    omega

theorem length_odds {α : Type} : ∀ l : List α,
    (odds l).length = l.length / 2 := by
  intro l
  induction l using odds.induct with
  | case1 => simp [odds]
  | case2 x => simp [odds]
  | case3 x y rest ih =>
    show (odds rest).length + 1 = _
    rw [ih]
    simp only [List.length_cons]
    omega

theorem getD_evens {α : Type} (d : α) : ∀ (l : List α) (i : Nat),
    (evens l).getD i d = l.getD (2 * i) d := by
  intro l
  induction l using evens.induct with
  | case1 => intro i; rfl
  | case2 x =>
    intro i
    match i with
    | 0 => rfl
    | i + 1 =>
      show d = List.getD [x] (2 * (i + 1)) d
      rw [List.getD_eq_default _ _ (by simp; omega)]
  | case3 x y rest ih =>
    intro i
    match i with
    | 0 => rfl
    | i + 1 =>
      show (evens rest).getD i d = _
      rw [ih i]
      have h2 : 2 * (i + 1) = 2 * i + 1 + 1 := by omega
      rw [h2, List.getD_cons_succ, List.getD_cons_succ]

theorem getD_odds {α : Type} (d : α) : ∀ (l : List α) (i : Nat),
    (odds l).getD i d = l.getD (2 * i + 1) d := by
  intro l
  induction l using odds.induct with
  | case1 => intro i; rfl
  | case2 x =>
    intro i
    show d = List.getD [x] (2 * i + 1) d
    rw [List.getD_eq_default _ _ (by simp)]
  | case3 x y rest ih =>
    intro i
    match i with
    | 0 => rfl
    | i + 1 =>
      show (odds rest).getD i d = _
      rw [ih i]
      have h2 : 2 * (i + 1) + 1 = 2 * i + 1 + 1 + 1 := by omega
      rw [h2, List.getD_cons_succ, List.getD_cons_succ]

/-- The recursive butterfly shared by `evaluate` and `interpolation`
(`fft.rs`), parameterised by the per-length root family `g`
(`F::get_root_of_unity`, or its elementwise inverse), with explicit fuel
(each level halves the list, so the list length always suffices).  A list of
length `≤ 1` is returned unchanged, otherwise the even/odd halves are
transformed and recombined with the twiddle factors `g(len)^i`. -/
def evaluateGo (g : Nat → F) : Nat → List F → List F
  | 0, c => c
  | fuel + 1, c =>
    if c.length ≤ 1 then c
    else
      (List.range (c.length / 2)).map (fun i =>
        (evaluateGo g fuel (evens c)).getD i 0 +
          g c.length ^ i * (evaluateGo g fuel (odds c)).getD i 0) ++
      (List.range (c.length / 2)).map (fun i =>
        (evaluateGo g fuel (evens c)).getD i 0 -
          g c.length ^ i * (evaluateGo g fuel (odds c)).getD i 0)

theorem evaluateGo_succ (g : Nat → F) (fuel : Nat) (c : List F) :
    evaluateGo g (fuel + 1) c =
      if c.length ≤ 1 then c
      else
        (List.range (c.length / 2)).map (fun i =>
          (evaluateGo g fuel (evens c)).getD i 0 +
            g c.length ^ i * (evaluateGo g fuel (odds c)).getD i 0) ++
        (List.range (c.length / 2)).map (fun i =>
          (evaluateGo g fuel (evens c)).getD i 0 -
            g c.length ^ i * (evaluateGo g fuel (odds c)).getD i 0) := rfl

/-- `FastFourierTransform::evaluate`: coefficients to values with the
`get_root_of_unity` family; `none` models the power-of-two panic (on a
power-of-two input every recursive call passes the same check). -/
def FastFourierTransform.evaluate (E : Env F) (c : List F) : Option (List F) :=
  if isPow2 c.length then some (evaluateGo E.rou c.length c) else none

/-- `FastFourierTransform::interpolation`: the same butterfly with the
inverted root of unity at every level; it does NOT divide by `n`. -/
def FastFourierTransform.interpolation (E : Env F) (c : List F) :
    Option (List F) :=
  if isPow2 c.length then
    some (evaluateGo (fun n => (E.rou n)⁻¹) c.length c)
  else none

/-- `FastFourierTransform::interpolate`: `interpolation` followed by
dividing every entry by `n`. -/
def FastFourierTransform.interpolate (E : Env F) (c : List F) :
    Option (List F) :=
  (FastFourierTransform.interpolation E c).map
    (fun y => y.map (fun e => e / ((c.length : Nat) : F)))

/-- The discrete Fourier transform with twiddle `w`: entry `j` is
`Σ_i c_i · w^(i·j)` (the specification-side description of the butterfly). -/
def dft (w : F) (c : List F) : List F :=
  (List.range c.length).map (fun j =>
    ((List.range c.length).map (fun i : Nat => c.getD i 0 * w ^ (i * j))).sum)

theorem length_dft (w : F) (c : List F) : (dft w c).length = c.length := by
  simp [dft]

theorem getD_dft (w : F) (c : List F) {j : Nat} (hj : j < c.length) :
    (dft w c).getD j 0 =
      ∑ i ∈ Finset.range c.length, c.getD i 0 * w ^ (i * j) := by
  rw [dft, MultiLinearPoly.getD_map_range hj,
    PartialSumCheck.sum_map_list_range]

theorem sum_range_even_odd {M : Type} [AddCommMonoid M] (f : Nat → M) :
    ∀ m : Nat, ∑ i ∈ Finset.range (2 * m), f i =
      (∑ t ∈ Finset.range m, f (2 * t)) +
        ∑ t ∈ Finset.range m, f (2 * t + 1) := by
  intro m
  induction m with
  | zero => simp
  | succ m ih =>
    have h2 : 2 * (m + 1) = 2 * m + 1 + 1 := by ring
    rw [h2, Finset.sum_range_succ, Finset.sum_range_succ, ih,
      Finset.sum_range_succ, Finset.sum_range_succ]
    abel

theorem dft_entry_even (w : F) (c : List F) (j t : Nat) :
    c.getD (2 * t) 0 * w ^ (2 * t * j) =
      (evens c).getD t 0 * (w ^ 2) ^ (t * j) := by
  rw [getD_evens, ← pow_mul]
  congr 2
  ring

theorem dft_entry_odd (w : F) (c : List F) (j t : Nat) :
    c.getD (2 * t + 1) 0 * w ^ ((2 * t + 1) * j) =
      w ^ j * ((odds c).getD t 0 * (w ^ 2) ^ (t * j)) := by
  rw [getD_odds,
    show (2 * t + 1) * j = 2 * (t * j) + j from by ring, pow_add, pow_mul]
  ring

theorem dft_entry_even_neg (w : F) {m : Nat} (hneg : w ^ m = -1) (c : List F)
    (j t : Nat) :
    c.getD (2 * t) 0 * w ^ (2 * t * (m + j)) =
      (evens c).getD t 0 * (w ^ 2) ^ (t * j) := by
  rw [getD_evens,
    show 2 * t * (m + j) = m * (2 * t) + 2 * (t * j) from by ring,
    pow_add, pow_mul w m, hneg, Even.neg_one_pow ⟨t, by ring⟩, one_mul,
    pow_mul w 2]

theorem dft_entry_odd_neg (w : F) {m : Nat} (hneg : w ^ m = -1) (c : List F)
    (j t : Nat) :
    c.getD (2 * t + 1) 0 * w ^ ((2 * t + 1) * (m + j)) =
      -(w ^ j * ((odds c).getD t 0 * (w ^ 2) ^ (t * j))) := by
  rw [getD_odds,
    show (2 * t + 1) * (m + j) = m * (2 * t) + (2 * (t * j) + (m + j))
      from by ring,
    pow_add, pow_add, pow_add, pow_mul w m, hneg,
    Even.neg_one_pow ⟨t, by ring⟩, one_mul, pow_mul w 2]
  ring

theorem dft_split (w : F) (m : Nat) (c : List F) (hlen : c.length = 2 * m)
    (hneg : w ^ m = -1) :
    dft w c =
      (List.range m).map (fun j =>
        (dft (w ^ 2) (evens c)).getD j 0 +
          w ^ j * (dft (w ^ 2) (odds c)).getD j 0) ++
      (List.range m).map (fun j =>
        (dft (w ^ 2) (evens c)).getD j 0 -
          w ^ j * (dft (w ^ 2) (odds c)).getD j 0) := by
  have hev : (evens c).length = m := by rw [length_evens, hlen]; omega
  have hod : (odds c).length = m := by rw [length_odds, hlen]; omega
  rw [dft]
  set f := fun j : Nat =>
    ((List.range c.length).map (fun i : Nat => c.getD i 0 * w ^ (i * j))).sum
    with hf
  rw [hlen, two_mul, List.range_add, List.map_append, List.map_map]
  congr 1
  · apply List.map_congr_left
    intro j hj
    have hjm : j < m := List.mem_range.mp hj
    rw [hf]
    show ((List.range c.length).map
      (fun i : Nat => c.getD i 0 * w ^ (i * j))).sum = _
    rw [PartialSumCheck.sum_map_list_range, hlen,
      getD_dft _ _ (show j < (evens c).length from by omega),
      getD_dft _ _ (show j < (odds c).length from by omega), hev, hod,
      sum_range_even_odd, Finset.mul_sum]
    congr 1
    · exact Finset.sum_congr rfl (fun t ht => dft_entry_even w c j t)
    · exact Finset.sum_congr rfl (fun t ht => dft_entry_odd w c j t)
  · apply List.map_congr_left
    intro j hj
    have hjm : j < m := List.mem_range.mp hj
    simp only [Function.comp]
    rw [hf]
    show ((List.range c.length).map
      (fun i : Nat => c.getD i 0 * w ^ (i * (m + j)))).sum = _
    rw [PartialSumCheck.sum_map_list_range, hlen,
      getD_dft _ _ (show j < (evens c).length from by omega),
      getD_dft _ _ (show j < (odds c).length from by omega), hev, hod,
      sum_range_even_odd, sub_eq_add_neg, Finset.mul_sum,
      ← Finset.sum_neg_distrib]
    congr 1
    · exact Finset.sum_congr rfl (fun t ht => dft_entry_even_neg w hneg c j t)
    · exact Finset.sum_congr rfl (fun t ht => dft_entry_odd_neg w hneg c j t)

theorem evaluateGo_dft (g : Nat → F) :
    ∀ (k fuel : Nat) (c : List F), c.length = 2 ^ k → k ≤ fuel →
      (∀ m, m < k → g (2 ^ (m + 1)) ^ 2 = g (2 ^ m)) →
      (∀ m, 1 ≤ m → m ≤ k → g (2 ^ m) ^ (2 ^ (m - 1)) = -1) →
      evaluateGo g fuel c = dft (g (2 ^ k)) c := by
  intro k
  induction k with
  | zero =>
    intro fuel c hlen hfuel hsq hneg
    obtain ⟨a, rfl⟩ := List.length_eq_one.mp (by simpa using hlen)
    have hbase : evaluateGo g fuel [a] = [a] := by
      match fuel with
      | 0 => rfl
      | f + 1 => rw [evaluateGo_succ, if_pos (by simp)]
    rw [hbase]
    simp [dft, show List.range 1 = [0] from rfl]
  | succ k ih =>
    intro fuel c hlen hfuel hsq hneg
    obtain ⟨fl, rfl⟩ : ∃ fl, fuel = fl + 1 := ⟨fuel - 1, by omega⟩
    have hp : (2 : Nat) ^ (k + 1) = 2 * 2 ^ k := by ring
    have hlong : ¬ c.length ≤ 1 := by
      rw [hlen, hp]
      have := Nat.one_le_two_pow (n := k)
      omega
    have hev : (evens c).length = 2 ^ k := by
      rw [length_evens, hlen, hp]
      omega
    have hod : (odds c).length = 2 ^ k := by
      rw [length_odds, hlen, hp]
      omega
    have hsq' : ∀ m, m < k → g (2 ^ (m + 1)) ^ 2 = g (2 ^ m) :=
      fun m hm => hsq m (by omega)
    have hneg' : ∀ m, 1 ≤ m → m ≤ k → g (2 ^ m) ^ (2 ^ (m - 1)) = -1 :=
      fun m h1 h2 => hneg m h1 (by omega)
    rw [evaluateGo_succ, if_neg hlong,
      ih fl (evens c) hev (by omega) hsq' hneg',
      ih fl (odds c) hod (by omega) hsq' hneg']
    have hw2 : g (2 ^ k) = g (2 ^ (k + 1)) ^ 2 := (hsq k (by omega)).symm
    have hwneg : g (2 ^ (k + 1)) ^ 2 ^ k = -1 := by
      have := hneg (k + 1) (by omega) (by omega)
      simpa using this
    rw [hw2, dft_split (g (2 ^ (k + 1))) (2 ^ k) c (by rw [hlen, hp]) hwneg,
      hlen, hp]
    rw [show 2 * 2 ^ k / 2 = 2 ^ k from by omega]

theorem isPow2Go_two_pow : ∀ (fuel k : Nat), 2 ^ k ≤ fuel →
    isPow2Go fuel (2 ^ k) = true := by
  intro fuel
  induction fuel with
  | zero =>
    intro k h
    have := Nat.one_le_two_pow (n := k)
    omega
  | succ fuel ih =>
    intro k h
    match k with
    | 0 => rfl
    | j + 1 =>
      show isPow2Go (fuel + 1) (2 ^ (j + 1)) = true
      have h2 : (2 : Nat) ^ (j + 1) = 2 * 2 ^ j := by ring
      have hj1 : (1 : Nat) ≤ 2 ^ j := Nat.one_le_two_pow
      rw [show isPow2Go (fuel + 1) (2 ^ (j + 1)) =
          (if 2 ^ (j + 1) = 0 then false
            else if 2 ^ (j + 1) = 1 then true
            else if 2 ^ (j + 1) % 2 = 1 then false
            else isPow2Go fuel (2 ^ (j + 1) / 2)) from rfl,
        if_neg (by omega), if_neg (by omega), if_neg (by omega),
        show 2 ^ (j + 1) / 2 = 2 ^ j from by omega]
      exact ih j (by omega)

theorem isPow2_two_pow (k : Nat) : isPow2 (2 ^ k) = true :=
  isPow2Go_two_pow (2 ^ k) k le_rfl

theorem geom_sum_pow_eq_zero {z : F} (n : Nat) (hz : z ≠ 1) (hzn : z ^ n = 1) :
    ∑ i ∈ Finset.range n, z ^ i = 0 := by
  rw [geom_sum_eq hz, hzn, sub_self, zero_div]

/-- Composing the DFT with twiddle `ω⁻¹` after the DFT with twiddle `ω`, for
`ω` of multiplicative order `n = len(c)`, multiplies every entry by `n`. -/
theorem dft_dft_inv (ω : F) (c : List F) (hord : orderOf ω = c.length)
    (hpos : 0 < c.length) :
    dft ω⁻¹ (dft ω c) = c.map (fun x => ((c.length : Nat) : F) * x) := by
  have hωn : ω ^ c.length = 1 := by rw [← hord]; exact pow_orderOf_eq_one ω
  have hω : ω ≠ 0 := by
    intro h0
    rw [h0, zero_pow (by omega)] at hωn
    exact zero_ne_one hωn
  have hu : ∀ j : Nat, ω ^ j ≠ 0 := fun j => pow_ne_zero j hω
  apply List.ext_getElem
  · simp [length_dft]
  intro j hj1 hj2
  have hjn : j < c.length := by
    rw [length_dft, length_dft] at hj1
    exact hj1
  have hgoal : ∀ (h1 : j < (dft ω⁻¹ (dft ω c)).length)
      (h2 : j < (c.map (fun x => ((c.length : Nat) : F) * x)).length),
      (dft ω⁻¹ (dft ω c)).get ⟨j, h1⟩ =
        (c.map (fun x => ((c.length : Nat) : F) * x)).get ⟨j, h2⟩ := by
    intro h1 h2
    rw [List.get_eq_getElem, List.get_eq_getElem,
      ← List.getD_eq_getElem (dft ω⁻¹ (dft ω c)) 0 h1,
      ← List.getD_eq_getElem _ 0 h2,
      getD_dft _ _ (show j < (dft ω c).length from by rw [length_dft]; omega),
      length_dft]
    have hinner : ∀ i ∈ Finset.range c.length,
        (dft ω c).getD i 0 * (ω⁻¹) ^ (i * j) =
          ∑ t ∈ Finset.range c.length,
            c.getD t 0 * (ω ^ t * (ω⁻¹) ^ j) ^ i := by
      intro i hi
      rw [getD_dft _ _ (List.mem_range.mp hi), Finset.sum_mul]
      refine Finset.sum_congr rfl (fun t ht => ?_)
      rw [mul_assoc]
      congr 1
      rw [mul_pow, ← pow_mul, ← pow_mul, mul_comm j i]
    rw [Finset.sum_congr rfl hinner, Finset.sum_comm]
    have houter : ∀ t ∈ Finset.range c.length,
        ∑ i ∈ Finset.range c.length, c.getD t 0 * (ω ^ t * (ω⁻¹) ^ j) ^ i =
          c.getD t 0 * if t = j then ((c.length : Nat) : F) else 0 := by
      intro t ht
      rw [← Finset.mul_sum]
      congr 1
      by_cases htj : t = j
      · subst htj
        rw [if_pos rfl]
        have hone : ω ^ t * (ω⁻¹) ^ t = 1 := by
          rw [inv_pow, mul_inv_cancel₀ (hu t)]
        calc ∑ i ∈ Finset.range c.length, (ω ^ t * (ω⁻¹) ^ t) ^ i
            = ∑ i ∈ Finset.range c.length, (1 : F) := by
              refine Finset.sum_congr rfl (fun i hi => ?_)
              rw [hone, one_pow]
          _ = ((c.length : Nat) : F) := by
              rw [Finset.sum_const, Finset.card_range, nsmul_eq_mul, mul_one]
      · rw [if_neg htj]
        have htn : t < c.length := List.mem_range.mp ht
        have hz1 : ω ^ t * (ω⁻¹) ^ j ≠ 1 := by
          intro hz
          rw [inv_pow] at hz
          have : ω ^ t = ω ^ j := by
            rw [← div_eq_one_iff_eq (hu j), div_eq_mul_inv]
            exact hz
          have hinj : Set.InjOn (fun i : ℕ => Units.mk0 ω hω ^ i)
              (Set.Iio (orderOf (Units.mk0 ω hω))) := pow_injOn_Iio_orderOf
          have hou : orderOf (Units.mk0 ω hω) = c.length := by
            rw [← orderOf_units]
            simpa using hord
          have hut : (Units.mk0 ω hω) ^ t = (Units.mk0 ω hω) ^ j := by
            apply Units.ext
            simpa using this
          have := hinj (by rw [hou]; exact Set.mem_Iio.mpr htn)
            (by rw [hou]; exact Set.mem_Iio.mpr hjn) hut
          exact htj this
        have hzn : (ω ^ t * (ω⁻¹) ^ j) ^ c.length = 1 := by
          rw [mul_pow, ← pow_mul, ← pow_mul, mul_comm t c.length,
            mul_comm j c.length, pow_mul, pow_mul, hωn, one_pow, inv_pow,
            hωn, inv_one, one_pow, mul_one]
        exact geom_sum_pow_eq_zero c.length hz1 hzn
    rw [Finset.sum_congr rfl houter]
    simp only [mul_ite, mul_zero]
    rw [Finset.sum_ite_eq' (Finset.range c.length) j
        (fun t => c.getD t 0 * ((c.length : Nat) : F)),
      if_pos (Finset.mem_range.mpr hjn),
      List.getD_eq_getElem (c.map (fun x => ((c.length : Nat) : F) * x)) 0 h2,
      List.getElem_map, ← List.getD_eq_getElem c 0 hjn, mul_comm]
  exact hgoal hj1 hj2

/-- C3.  FFT/IFFT round-trip scaling: over a field whose root-of-unity
family is coherent (`rou(2^(m+1))^2 = rou(2^m)`) and primitive
(`rou(2^m)^(2^(m-1)) = -1`, with `-1 ≠ 1`), applying `interpolation` — the
evaluation butterfly run with `ω⁻¹`, which does not divide by `n` — to
`evaluate(c)` for any coefficient vector `c` of power-of-two length yields
`c` with every entry multiplied by `len(c)`. -/
theorem c3_fft_inverse_scaling (E : Env F) (k : Nat) (c : List F)
    (hlen : c.length = 2 ^ k)
    (hsq : ∀ m, m < k → E.rou (2 ^ (m + 1)) ^ 2 = E.rou (2 ^ m))
    (hneg : ∀ m, m ≤ k → 1 ≤ m → E.rou (2 ^ m) ^ (2 ^ (m - 1)) = -1)
    (hone : (-1 : F) ≠ 1) :
    ∃ y, FastFourierTransform.evaluate E c = some y ∧
      FastFourierTransform.interpolation E y =
        some (c.map (fun x => ((c.length : Nat) : F) * x)) := by
  have hpow : isPow2 c.length = true := by rw [hlen]; exact isPow2_two_pow k
  have hk2 : k ≤ 2 ^ k := Nat.le_of_lt (Nat.lt_two_pow k)
  have hneg2 : ∀ m, 1 ≤ m → m ≤ k → E.rou (2 ^ m) ^ (2 ^ (m - 1)) = -1 :=
    fun m h1 h2 => hneg m h2 h1
  have hev := evaluateGo_dft E.rou k c.length c hlen (by omega) hsq hneg2
  refine ⟨evaluateGo E.rou c.length c, ?_, ?_⟩
  · rw [FastFourierTransform.evaluate, if_pos hpow]
  · have hylen : (evaluateGo E.rou c.length c).length = 2 ^ k := by
      rw [hev, length_dft, hlen]
    rw [FastFourierTransform.interpolation,
      if_pos (by rw [hylen]; exact isPow2_two_pow k)]
    have hsq' : ∀ m, m < k → (fun n => (E.rou n)⁻¹) (2 ^ (m + 1)) ^ 2 =
        (fun n => (E.rou n)⁻¹) (2 ^ m) := by
      intro m hm
      show ((E.rou (2 ^ (m + 1)))⁻¹) ^ 2 = (E.rou (2 ^ m))⁻¹
      rw [inv_pow, hsq m hm]
    have hneg' : ∀ m, 1 ≤ m → m ≤ k →
        (fun n => (E.rou n)⁻¹) (2 ^ m) ^ (2 ^ (m - 1)) = -1 := by
      intro m h1m hmk
      show ((E.rou (2 ^ m))⁻¹) ^ (2 ^ (m - 1)) = -1
      rw [inv_pow, hneg2 m h1m hmk, inv_neg, inv_one]
    have hint := evaluateGo_dft (fun n => (E.rou n)⁻¹) k
      (evaluateGo E.rou c.length c).length (evaluateGo E.rou c.length c)
      hylen (by omega) hsq' hneg'
    rw [hint, hev]
    congr 1
    show dft (E.rou (2 ^ k))⁻¹ (dft (E.rou (2 ^ k)) c) = _
    match k, hlen, hsq, hneg2, hev, hylen, hint with
    | 0, hlen, hsq, hneg2, hev, hylen, hint =>
      obtain ⟨a, rfl⟩ := List.length_eq_one.mp (by simpa using hlen)
      simp [dft, show List.range 1 = [0] from rfl]
    | k0 + 1, hlen, hsq, hneg2, hev, hylen, hint =>
      have hwneg : E.rou (2 ^ (k0 + 1)) ^ (2 ^ k0) = -1 := by
        have := hneg2 (k0 + 1) (by omega) le_rfl
        simpa using this
      have hωpow : E.rou (2 ^ (k0 + 1)) ^ (2 ^ (k0 + 1)) = 1 := by
        have hsplit : E.rou (2 ^ (k0 + 1)) ^ (2 ^ (k0 + 1)) =
            (E.rou (2 ^ (k0 + 1)) ^ (2 ^ k0)) ^ 2 := by
          rw [← pow_mul, show (2 : Nat) ^ k0 * 2 = 2 ^ (k0 + 1) from by ring]
        rw [hsplit, hwneg, neg_one_sq]
      haveI : Fact (Nat.Prime 2) := ⟨Nat.prime_two⟩
      have horder : orderOf (E.rou (2 ^ (k0 + 1))) = 2 ^ (k0 + 1) := by
        apply orderOf_eq_prime_pow
        · rw [hwneg]
          exact hone
        · exact hωpow
      exact dft_dft_inv (E.rou (2 ^ (k0 + 1))) c (by rw [hlen]; exact horder)
        (by rw [hlen]; exact Nat.pos_pow_of_pos _ (by omega))

end FFT

/-- Witness for C3: the vector (1,2,3,4) over F17 with the coherent
primitive family rou 4 = 4, rou 2 = 16; the hypotheses hold and the
butterfly round trip scales every entry by 4. -/
theorem c3_fft_inverse_scaling_witness :
    ((∀ m, m < 2 → envF17.rou (2 ^ (m + 1)) ^ 2 = envF17.rou (2 ^ m)) ∧
      (∀ m, m ≤ 2 → 1 ≤ m → envF17.rou (2 ^ m) ^ (2 ^ (m - 1)) = -1) ∧
      ((-1 : F17) ≠ 1) ∧ ([1, 2, 3, 4] : List F17).length = 2 ^ 2) ∧
    (∃ y, FastFourierTransform.evaluate envF17 ([1, 2, 3, 4] : List F17) =
        some y ∧
      FastFourierTransform.interpolation envF17 y =
        some (([1, 2, 3, 4] : List F17).map
          (fun x => ((([1, 2, 3, 4] : List F17).length : Nat) : F17) * x))) :=
  ⟨⟨by decide, by decide, by decide, by decide⟩,
    c3_fft_inverse_scaling envF17 2 [1, 2, 3, 4] (by decide) (by decide)
      (by decide) (by decide)⟩

section FRI

variable {F : Type} [Field F] [DecidableEq F]

/-- Modelled from the spec (§4.2): the Merkle proof type used by the FRI
protocol (`merkle_tree.rs` in this tree lacks the `leaf_index` field its
callers use): `{siblings: [digest], leaf_index}`. -/
structure MerkleProofIdx where
  siblings : List (List Nat)
  leaf_index : Nat

/-- Modelled from the spec (§4.2): `generate_proof(leaf) ->
{siblings, leaf_index}` finds the leaf hash in layer 0 (`None` when absent)
and records the sibling at every level together with the leaf position. -/
def generate_proof_idx (H : List Nat → List Nat) (t : MerkleTree)
    (leaf : List Nat) : Option MerkleProofIdx :=
  match (t.layers.getD 0 []).findIdx? (fun x => x == H leaf) with
  | none => none
  | some index =>
    if t.layers.isEmpty ∨ index ≥ (t.layers.getD 0 []).length then none
    else
      some ⟨proof_siblings (t.layers.take (t.layers.length - 1)) index, index⟩

/-- Modelled from the spec (§4.2): `verify_proof(leaf, proof,
expected_root)` recomputes upward from the leaf hash, deciding the
concatenation order by the recorded index parity at each level, and
compares against the supplied root. -/
def verify_proof_root (H : List Nat → List Nat) (leaf_data : List Nat)
    (proof : MerkleProofIdx) (root : List Nat) : Bool :=
  fold_path H (H leaf_data) proof.leaf_index proof.siblings == root

/-- `FRIProtocol::domain_size` (`fri_helper_functions.rs`): the smallest
power of two reached by doubling from 1 that is
`≥ (max_degree + 1) * blowup_factor`, with `max_degree = poly.len() - 1`
(set by `FRIProtocol::new`). -/
def FRIProtocol.domain_size (poly : List F) (blowup_factor : Nat) : Nat :=
  next_pow2 ((poly.length - 1 + 1) * blowup_factor)

/-- `FRIProtocol::pad_to_power_of_two`: `Vec::resize(domain_size(), 0)` —
truncate or zero-extend to exactly `domain_size` entries. -/
def FRIProtocol.pad_to_power_of_two (poly : List F) (blowup_factor : Nat) :
    List F :=
  (poly ++ List.replicate
      (FRIProtocol.domain_size poly blowup_factor - poly.length) 0).take
    (FRIProtocol.domain_size poly blowup_factor)

/-- `split_poly` (`fri_helper_functions.rs`), identical to `split_array`:
even- and odd-indexed entries. -/
def split_poly (poly : List F) : List F × List F := (evens poly, odds poly)

/-- `fold_poly`: a singleton is returned as `[poly[0]]`, otherwise the even
and odd halves are zipped into `e + r·o`. -/
def fold_poly (poly : List F) (r_challenge : F) : List F :=
  if poly.length = 1 then [poly.getD 0 0]
  else ((split_poly poly).1.zip (split_poly poly).2).map
    (fun p => p.1 + r_challenge * p.2)

/-- `pad_poly_to_power_of_two`: `none` models the not-a-power-of-two panic;
otherwise the length is doubled with zeros. -/
def pad_poly_to_power_of_two (poly : List F) : Option (List F) :=
  if isPow2 poly.length then some (poly ++ List.replicate poly.length 0)
  else none

/-- `FRIProof` (`fri_protocol.rs`). -/
structure FRIProof (F : Type) where
  root_hashes : List (List Nat)
  final_poly : List F
  values_at_index : List F
  values_at_neg_index : List F
  merkle_trees : List MerkleTree
  proofs_at_index : List MerkleProofIdx
  proofs_at_neg_index : List MerkleProofIdx
  claimed_sums : List F

/-- The mutable state of the commit loop of `FRIProtocol::generate_proof`. -/
structure FRIState (F : Type) where
  m_hashes : List (List Nat)
  m_trees : List MerkleTree
  all_evals : List (List F)
  f_poly : List F
  eval_poly : List F
  tr : Transcript

/-- The commit loop of `FRIProtocol::generate_proof` (`for _i in
0..num_rounds`): Merkle-commit the current evaluations (decimal-string
leaves), absorb the root, squeeze `r`, fold, pad and re-evaluate; a
length-1 `f_poly` is folded once more and the loop breaks.  `none` models
the `unwrap`/panic paths. -/
def fri_commit_loop (E : Env F) : Nat → FRIState F → Option (FRIState F)
  | 0, s => some s
  | rem + 1, s =>
    match (MerkleTree.new E.mhash (s.eval_poly.map E.toDecimal)).root with
    | none => none
    | some m_root =>
      if s.f_poly.length = 1 then
        some ⟨s.m_hashes ++ [m_root],
          s.m_trees ++ [MerkleTree.new E.mhash (s.eval_poly.map E.toDecimal)],
          s.all_evals ++ [fold_poly s.f_poly
            (E.fromBytes (Transcript.squeeze E.thash (s.tr.absorb m_root)).1)],
          s.f_poly,
          fold_poly s.f_poly
            (E.fromBytes (Transcript.squeeze E.thash (s.tr.absorb m_root)).1),
          (Transcript.squeeze E.thash (s.tr.absorb m_root)).2⟩
      else
        match pad_poly_to_power_of_two (fold_poly s.f_poly
            (E.fromBytes (Transcript.squeeze E.thash (s.tr.absorb m_root)).1))
          with
        | none => none
        | some padded =>
          match FastFourierTransform.evaluate E padded with
          | none => none
          | some ev =>
            fri_commit_loop E rem ⟨s.m_hashes ++ [m_root],
              s.m_trees ++
                [MerkleTree.new E.mhash (s.eval_poly.map E.toDecimal)],
              s.all_evals ++ [ev],
              fold_poly s.f_poly
                (E.fromBytes
                  (Transcript.squeeze E.thash (s.tr.absorb m_root)).1),
              ev, (Transcript.squeeze E.thash (s.tr.absorb m_root)).2⟩

/-- The accumulators of the query loop of `FRIProtocol::generate_proof`. -/
structure FRIQuery (F : Type) where
  v_at_index : List F
  p_at_index : List MerkleProofIdx
  v_at_neg_index : List F
  p_at_neg_index : List MerkleProofIdx
  c_sums : List F

/-- The query loop of `FRIProtocol::generate_proof` (`for round in
0..num_rounds`): per round the value and Merkle path at `v_index %
round_domain_size` and at `(v_index + half) % round_domain_size` are
recorded, the claimed sum (from round 1 on) at `verifier_index %
round_domain_size`, and `v_index` is halved. -/
def fri_query_loop (E : Env F) (all_evals : List (List F))
    (m_trees : List MerkleTree) (domain_size verifier_index : Nat) :
    Nat → Nat → Nat → Option (FRIQuery F)
  | 0, _, _ => some ⟨[], [], [], [], []⟩
  | rem + 1, round, v_index =>
    match generate_proof_idx E.mhash (m_trees.getD round ⟨[]⟩)
        (E.toDecimal ((all_evals.getD round []).getD
          (v_index % (domain_size >>> round)) 0)) with
    | none => none
    | some p_i =>
      match generate_proof_idx E.mhash (m_trees.getD round ⟨[]⟩)
          (E.toDecimal ((all_evals.getD round []).getD
            ((v_index + (domain_size >>> round) / 2) %
              (domain_size >>> round)) 0)) with
      | none => none
      | some p_n =>
        match fri_query_loop E all_evals m_trees domain_size verifier_index
            rem (round + 1) (v_index / 2) with
        | none => none
        | some acc =>
          some ⟨(all_evals.getD round []).getD
              (v_index % (domain_size >>> round)) 0 :: acc.v_at_index,
            p_i :: acc.p_at_index,
            (all_evals.getD round []).getD
              ((v_index + (domain_size >>> round) / 2) %
                (domain_size >>> round)) 0 :: acc.v_at_neg_index,
            p_n :: acc.p_at_neg_index,
            (if round ≠ 0 then
              [(all_evals.getD round []).getD
                (verifier_index % (domain_size >>> round)) 0]
             else []) ++ acc.c_sums⟩

/-- `FRIProtocol::generate_proof`: pad/evaluate the input polynomial, run
the commit loop for `ilog2` of the evaluation length rounds, squeeze the
query field element, reduce its integer representative modulo the UNPADDED
polynomial length, and run the query loop. -/
def FRIProtocol.generate_proof (E : Env F) (poly : List F)
    (blowup_factor : Nat) : Option (FRIProof F) :=
  match FastFourierTransform.evaluate E
      (FRIProtocol.pad_to_power_of_two poly blowup_factor) with
  | none => none
  | some ev0 =>
    match fri_commit_loop E (ilog2 ev0.length)
        ⟨[], [], [ev0], poly, ev0, Transcript.new⟩ with
    | none => none
    | some s =>
      match fri_query_loop E s.all_evals s.m_trees
          (FRIProtocol.pad_to_power_of_two poly blowup_factor).length
          (E.intRepr (E.fromBytes (Transcript.squeeze E.thash s.tr).1)
            % poly.length)
          (ilog2 ev0.length) 0
          (E.intRepr (E.fromBytes (Transcript.squeeze E.thash s.tr).1)
            % poly.length) with
      | none => none
      | some q =>
        some ⟨s.m_hashes, s.eval_poly, q.v_at_index, q.v_at_neg_index,
          s.m_trees, q.p_at_index, q.p_at_neg_index, q.c_sums⟩

/-- The main loop of `FRIProtocol::verify` over rounds `0..num_rounds-1`:
both Merkle inclusions are checked — but the round only aborts when BOTH
fail (`if !check_proof_i && !check_proof_neg_i`); then the folding identity
`claimed_sums[k] = (f_x + f_neg_x)/2 + r·(f_x − f_neg_x)/(2·ω^leaf_index)`
is enforced and the root is squared.  `none` models `return false`. -/
def fri_verify_loop (E : Env F) (p : FRIProof F) :
    Nat → Nat → Transcript → F → Option (Transcript × F)
  | 0, _, t, w => some (t, w)
  | rem + 1, index, t, w =>
    if ¬ verify_proof_root E.mhash
          (E.toDecimal (p.values_at_index.getD index 0))
          (p.proofs_at_index.getD index ⟨[], 0⟩)
          (p.root_hashes.getD index []) ∧
        ¬ verify_proof_root E.mhash
          (E.toDecimal (p.values_at_neg_index.getD index 0))
          (p.proofs_at_neg_index.getD index ⟨[], 0⟩)
          (p.root_hashes.getD index []) then none
    else
      if p.claimed_sums.getD index 0 ≠
          (p.values_at_index.getD index 0 + p.values_at_neg_index.getD index 0)
              * (2 : F)⁻¹ +
            E.fromBytes (Transcript.squeeze E.thash
                (t.absorb (p.root_hashes.getD index []))).1 *
              ((p.values_at_index.getD index 0 -
                  p.values_at_neg_index.getD index 0) *
                (2 * w ^ (p.proofs_at_index.getD index ⟨[], 0⟩).leaf_index)⁻¹)
        then none
      else
        fri_verify_loop E p rem (index + 1)
          (Transcript.squeeze E.thash
            (t.absorb (p.root_hashes.getD index []))).2 (w * w)

/-- `FRIProtocol::verify`: the round loop, then the last-round oracle check
(again only aborting when BOTH inclusions fail) and the final comparison of
`final_poly[0]` with the expected last evaluation. -/
def FRIProtocol.verify (E : Env F) (proof : FRIProof F) : Bool :=
  match fri_verify_loop E proof (proof.root_hashes.length - 1) 0
      Transcript.new (E.rou (2 ^ proof.root_hashes.length)) with
  | none => false
  | some (t, w) =>
    if ¬ verify_proof_root E.mhash
          (E.toDecimal
            (proof.values_at_index.getD (proof.root_hashes.length - 1) 0))
          (proof.proofs_at_index.getD (proof.root_hashes.length - 1) ⟨[], 0⟩)
          (proof.root_hashes.getD (proof.root_hashes.length - 1) []) ∧
        ¬ verify_proof_root E.mhash
          (E.toDecimal
            (proof.values_at_neg_index.getD (proof.root_hashes.length - 1) 0))
          (proof.proofs_at_neg_index.getD
            (proof.root_hashes.length - 1) ⟨[], 0⟩)
          (proof.root_hashes.getD (proof.root_hashes.length - 1) [])
      then false
    else
      proof.final_poly.getD 0 0 ==
        (proof.values_at_index.getD (proof.root_hashes.length - 1) 0 +
            proof.values_at_neg_index.getD (proof.root_hashes.length - 1) 0)
            * (2 : F)⁻¹ +
          E.fromBytes (Transcript.squeeze E.thash (t.absorb
              (proof.root_hashes.getD (proof.root_hashes.length - 1) []))).1 *
            ((proof.values_at_index.getD (proof.root_hashes.length - 1) 0 -
                proof.values_at_neg_index.getD
                  (proof.root_hashes.length - 1) 0) *
              (2 * w ^ (proof.proofs_at_index.getD
                (proof.root_hashes.length - 1) ⟨[], 0⟩).leaf_index)⁻¹)

/-- C7.  FRI query-phase indexing: for the input polynomial (1,2,3,4) with
blowup 2 over F17, `generate_proof` succeeds, the claim would make the
recorded round-1 queried value `f¹[q mod D₁]` — which is exactly what the
code stores into `claimed_sums[0]` — but the code halves the query index
(`v_index /= 2`) before reducing it, recording
`f¹[(q/2) mod D₁] = values_at_index[1]`, and the two values differ. -/
theorem c7_fri_query_indexing :
    ∃ prf, FRIProtocol.generate_proof envF17 ([1, 2, 3, 4] : List F17) 2 =
        some prf ∧
      prf.claimed_sums.getD 0 0 ≠ prf.values_at_index.getD 1 0 :=
  ⟨(FRIProtocol.generate_proof envF17 ([1, 2, 3, 4] : List F17) 2).get
      (by decide),
    (Option.some_get (by decide)).symm, by decide⟩

/-- A handcrafted one-round FRI proof over F17: a Merkle tree over the two
leaves 3 and 5, a valid inclusion proof for the value 3 at index 0, an
INVALID inclusion proof (empty siblings) for the antipodal value 5, no
claimed sums, and the final polynomial set to the expected last evaluation
2 = (3+5)/2 + r·(3−5)/(2·ω⁰) with r = 2 squeezed after absorbing the
root. -/
def prfC2 : FRIProof F17 where
  root_hashes := [[53, 7, 3, 11, 5]]
  final_poly := [2]
  values_at_index := [3]
  values_at_neg_index := [5]
  merkle_trees := [⟨[[[7, 3], [11, 5]], [[53, 7, 3, 11, 5]]]⟩]
  proofs_at_index := [⟨[[11, 5]], 0⟩]
  proofs_at_neg_index := [⟨[], 0⟩]
  claimed_sums := []

/-- C2.  FRI verifier and Merkle inclusion failures: in `prfC2` the
inclusion check of the value at the antipodal index against the recorded
round-0 root fails, yet `FRIProtocol::verify` accepts, because the code
only rejects when BOTH inclusion checks fail
(`if !check_proof_i && !check_proof_neg_i`). -/
theorem c2_fri_merkle_failure_accepted :
    verify_proof_root envF17.mhash
        (envF17.toDecimal (prfC2.values_at_neg_index.getD 0 0))
        (prfC2.proofs_at_neg_index.getD 0 ⟨[], 0⟩)
        (prfC2.root_hashes.getD 0 []) = false ∧
      FRIProtocol.verify envF17 prfC2 = true :=
  ⟨by decide, by decide⟩

end FRI

section KZG

variable {F : Type} [Field F] [DecidableEq F]

/- The KZG embedding uses a discrete-logarithm model of the pairing
curve: elements of `G1`, `G2` and the pairing target group (all cyclic of
the scalar-field order) are represented by their discrete logarithms in
`F`.  The group generators have logarithm `1`, the group zero has
logarithm `0`, `mul_bigint` (scalar multiplication) is field
multiplication, group addition/subtraction is field addition/subtraction,
and `P::pairing` multiplies the logarithms (bilinearity of the pairing);
equality of group elements is equality of logarithms. -/

/-- `compute_commitment` (`kzg_helper_functions.rs`):
`Σᵢ e_basisᵢ · poly.computation[i]` over the encrypted basis. -/
def compute_commitment (poly : MultiLinearPoly F) (encrypted_basis : List F) :
    F :=
  ((List.range encrypted_basis.length).map (fun i =>
    encrypted_basis.getD i 0 * poly.getD i 0)).sum

/-- `compute_poly_minus_v`: subtract `poly.evaluate(vars)[0]` from every
table entry (`none` models the evaluate panic). -/
def compute_poly_minus_v (poly : MultiLinearPoly F) (vars_to_open : List F) :
    Option (MultiLinearPoly F) :=
  match MultiLinearPoly.evaluate poly vars_to_open with
  | none => none
  | some eval_poly => some (poly.map (fun val => val - eval_poly.getD 0 0))

/-- `element_wise_op` at `Operator::Sub` (the only operator `compute_quotient`
uses): `none` models the unequal-length panic. -/
def element_wise_sub (poly_a poly_b : List F) : Option (List F) :=
  if poly_a.length = poly_b.length then
    some ((List.range poly_a.length).map (fun i =>
      poly_a.getD i 0 - poly_b.getD i 0))
  else none

/-- `compute_quotient`: split at `len / 2` and subtract the first half from
the second. -/
def compute_quotient (poly : MultiLinearPoly F) :
    Option (MultiLinearPoly F) :=
  element_wise_sub (poly.drop (poly.length / 2)) (poly.take (poly.length / 2))

/-- `compute_remainder`: `partial_evaluate` at variable position 0. -/
def compute_remainder (poly : MultiLinearPoly F) (eval_point : F) :
    MultiLinearPoly F :=
  MultiLinearPoly.partial_evaluate poly eval_point 0

/-- `explode`: push every entry twice (the table duplicated). -/
def explode (poly : List F) : List F := poly ++ poly

/-- The `for _i in 0..blow_up_times` loop of `blow_up`. -/
def blowGo : Nat → List F → List F
  | 0, p => p
  | t + 1, p => blowGo t (explode p)

/-- `blow_up`: `none` models the not-power-of-two panic. -/
def blow_up (poly : List F) (blow_up_times : Nat) : Option (List F) :=
  if isPow2 poly.length then some (blowGo blow_up_times poly) else none

/-- `compute_lagrange_basis` (`trusted_setup.rs`): entry `i` of the
`2^len`-element table is the product over the bit positions of `τ_b` or
`1 − τ_b` according to the MSB-first bit `i & (1 << (num_bits-1-b))`
(`num_bits = trailing_zeros(2^len) = len`). -/
def compute_lagrange_basis (tau_arr : List F) : List F :=
  (List.range (2 ^ tau_arr.length)).map (fun i =>
    ((List.range tau_arr.length).map (fun bit_position =>
      if i &&& (1 <<< (tau_arr.length - 1 - bit_position)) ≠ 0
      then tau_arr.getD bit_position 0
      else 1 - tau_arr.getD bit_position 0)).prod)

/-- `TrustedSetup` (`trusted_setup.rs`), in the discrete-log model. -/
structure TrustedSetup (F : Type) where
  max_input : Nat
  g1_arr : List F
  g2_arr : List F

/-- `trusted_setup::initialize` (renamed: `initialize` is reserved in
Lean): `g1_arr` encrypts the Lagrange basis at `τ`
(`g1_generator.mul_bigint(val)` has logarithm `1 * val`), `g2_arr`
encrypts the `τ` coordinates. -/
def initializeSetup (tau_arr : List F) : TrustedSetup F :=
  ⟨tau_arr.length,
    (compute_lagrange_basis tau_arr).map (fun val => 1 * val),
    tau_arr.map (fun tau => 1 * tau)⟩

/-- `KZGProof` (`kzg_protocol.rs`), in the discrete-log model. -/
structure KZGProof (F : Type) where
  commitment : F
  quotient_evals : List F
  poly_opened : F

/-- The `for i in 0..vars_to_open.len()` loop of `kzg_protocol::proof`:
per round take the quotient, blow it up `i + 1` times, encrypt it against
the basis, and continue with the remainder; returns the quotient
evaluations and the final remainder table. -/
def kzg_proof_loop (encrypted_basis vars_to_open : List F) :
    Nat → Nat → List F → Option (List F × List F)
  | 0, _, poly_minus_v => some ([], poly_minus_v)
  | rem + 1, i, poly_minus_v =>
    match compute_quotient poly_minus_v with
    | none => none
    | some quotient =>
      match blow_up quotient (i + 1) with
      | none => none
      | some blown_quotient =>
        match kzg_proof_loop encrypted_basis vars_to_open rem (i + 1)
            (compute_remainder poly_minus_v (vars_to_open.getD i 0)) with
        | none => none
        | some (qes, pfin) =>
          some (((List.range encrypted_basis.length).map (fun j =>
            encrypted_basis.getD j 0 * blown_quotient.getD j 0)).sum :: qes,
            pfin)

theorem kzg_proof_loop_succ (encrypted_basis vars_to_open : List F)
    (rem i : Nat) (poly_minus_v : List F) :
    kzg_proof_loop encrypted_basis vars_to_open (rem + 1) i poly_minus_v =
      (match compute_quotient poly_minus_v with
      | none => none
      | some quotient =>
        match blow_up quotient (i + 1) with
        | none => none
        | some blown_quotient =>
          match kzg_proof_loop encrypted_basis vars_to_open rem (i + 1)
              (compute_remainder poly_minus_v (vars_to_open.getD i 0)) with
          | none => none
          | some (qes, pfin) =>
            some (((List.range encrypted_basis.length).map (fun j =>
              encrypted_basis.getD j 0 * blown_quotient.getD j 0)).sum
              :: qes, pfin)) := rfl

/-- `kzg_protocol::proof`: evaluate the polynomial at the opening point,
commit it, run the quotient loop on `poly − v`, and assert the final
remainder is zero (`none` models the panics and the failed assert). -/
def KZG.proof (poly : MultiLinearPoly F)
    (encrypted_basis vars_to_open : List F) : Option (KZGProof F) :=
  match MultiLinearPoly.evaluate poly vars_to_open with
  | none => none
  | some ev =>
    match compute_poly_minus_v poly vars_to_open with
    | none => none
    | some poly_minus_v =>
      match kzg_proof_loop encrypted_basis vars_to_open vars_to_open.length
          0 poly_minus_v with
      | none => none
      | some (quotient_evals, pfin) =>
        if pfin.getD 0 0 = 0 then
          some ⟨compute_commitment poly encrypted_basis, quotient_evals,
            ev.getD 0 0⟩
        else none

/-- `kzg_protocol::verify` in the discrete-log model:
`pairing(commitment − g1·v, g2·1) == Σᵢ pairing(Q_i, τ_i − g2·a_i)` —
the right-hand sum iterates over `encrypted_taus` ONLY. -/
def KZG.verify (prf : KZGProof F) (encrypted_taus vars_to_open : List F) :
    Bool :=
  ((List.range encrypted_taus.length).map (fun i =>
      prf.quotient_evals.getD i 0 *
        (encrypted_taus.getD i 0 - 1 * vars_to_open.getD i 0))).sum
    == (prf.commitment - 1 * prf.poly_opened) * (1 * 1)

theorem getD_map_of_lt {α β : Type} (f : α → β) (l : List α) {i : Nat}
    (h : i < l.length) (d : β) (d2 : α) :
    (l.map f).getD i d = f (l.getD i d2) := by
  rw [List.getD_eq_getElem _ _ (by simpa using h),
    List.getD_eq_getElem _ _ h, List.getElem_map]

theorem list_map_getD_range (l : List F) :
    (List.range l.length).map (fun i => l.getD i 0) = l := by
  apply List.ext_getElem
  · simp
  intro i h1 h2
  simp only [List.getElem_map, List.getElem_range]
  rw [List.getD_eq_getElem _ _ h2]

theorem prod_map_list_range (n : Nat) (f : Nat → F) :
    ((List.range n).map f).prod = ∏ i ∈ Finset.range n, f i := by
  induction n with
  | zero => simp
  | succ n ih =>
    rw [List.range_succ, List.map_append, List.prod_append,
      Finset.prod_range_succ, ih]
    simp

theorem compute_lagrange_basis_getD (tau_arr : List F) {i : Nat}
    (h : i < 2 ^ tau_arr.length) :
    (compute_lagrange_basis tau_arr).getD i 0 =
      lagBasis tau_arr.length tau_arr i := by
  rw [compute_lagrange_basis, MultiLinearPoly.getD_map_range h,
    prod_map_list_range, lagBasis]
  apply Finset.prod_congr rfl
  intro j hj
  by_cases hbit : i / 2 ^ (tau_arr.length - 1 - j) % 2 = 1
  · rw [if_pos hbit, if_pos]
    rw [Nat.one_shiftLeft, Nat.and_two_pow, Nat.testBit_to_div_mod]
    simp [hbit]
  · rw [if_neg hbit, if_neg]
    rw [Nat.one_shiftLeft, Nat.and_two_pow, Nat.testBit_to_div_mod]
    simp [hbit]

theorem length_compute_lagrange_basis (tau_arr : List F) :
    (compute_lagrange_basis tau_arr).length = 2 ^ tau_arr.length := by
  simp [compute_lagrange_basis]

/-- The basis-weighted sum over any table of matching length is the table's
MLE at `τ`. -/
theorem basis_sum_eq_mle (tau_arr t : List F)
    (ht : t.length = 2 ^ tau_arr.length) :
    ((List.range (compute_lagrange_basis tau_arr).length).map (fun i =>
      (compute_lagrange_basis tau_arr).getD i 0 * t.getD i 0)).sum =
      mleEval t tau_arr := by
  rw [PartialSumCheck.sum_map_list_range, length_compute_lagrange_basis,
    mleEval, ht]
  apply Finset.sum_congr rfl
  intro i hi
  rw [compute_lagrange_basis_getD tau_arr (Finset.mem_range.mp hi), mul_comm]

theorem lagBasis_sum_one :
    ∀ (v : Nat) (rs : List F), rs.length = v →
      ∑ i ∈ Finset.range (2 ^ v), lagBasis v rs i = 1 := by
  intro v
  induction v with
  | zero =>
    intro rs h
    simp [lagBasis]
  | succ v ih =>
    intro rs h
    match rs with
    | r :: rs =>
      have hrs : rs.length = v := by simpa using h
      have hsplit : (2 : Nat) ^ (v + 1) = 2 ^ v + 2 ^ v := by
        rw [pow_succ]; omega
      rw [hsplit, Finset.sum_range_add]
      have h1 : ∀ i ∈ Finset.range (2 ^ v),
          lagBasis (v + 1) (r :: rs) i = (1 - r) * lagBasis v rs i :=
        fun i hi => lagBasis_cons_lo rs r (Finset.mem_range.mp hi)
      have h2 : ∀ i ∈ Finset.range (2 ^ v),
          lagBasis (v + 1) (r :: rs) (2 ^ v + i) = r * lagBasis v rs i :=
        fun i hi => lagBasis_cons_hi rs r (Finset.mem_range.mp hi)
      rw [Finset.sum_congr rfl h1, Finset.sum_congr rfl h2,
        ← Finset.mul_sum, ← Finset.mul_sum, ih rs hrs]
      ring

theorem mleEval_map_sub_const (t : List F) (rs : List F) (v : F)
    (ht : t.length = 2 ^ rs.length) :
    mleEval (t.map (fun x => x - v)) rs = mleEval t rs - v := by
  rw [mleEval, mleEval, List.length_map, ht]
  have hpt : ∀ i ∈ Finset.range (2 ^ rs.length),
      (t.map (fun x => x - v)).getD i 0 * lagBasis rs.length rs i =
        t.getD i 0 * lagBasis rs.length rs i -
          v * lagBasis rs.length rs i := by
    intro i hi
    rw [getD_map_of_lt _ _ (by rw [ht]; exact Finset.mem_range.mp hi) 0 0]
    ring
  rw [Finset.sum_congr rfl hpt, Finset.sum_sub_distrib, ← Finset.mul_sum,
    lagBasis_sum_one rs.length rs rfl, mul_one]

theorem getD_drop_eq (l : List F) (n i : Nat) (h : n + i < l.length) :
    (l.drop n).getD i 0 = l.getD (n + i) 0 := by
  rw [List.getD_eq_getElem _ _ (by rw [List.length_drop]; omega),
    List.getD_eq_getElem _ _ h, List.getElem_drop]

theorem getD_take_eq (l : List F) (n i : Nat) (h : i < n)
    (h2 : i < l.length) :
    (l.take n).getD i 0 = l.getD i 0 := by
  rw [List.getD_eq_getElem _ _ (by rw [List.length_take]; omega),
    List.getD_eq_getElem _ _ h2, List.getElem_take]

theorem compute_quotient_pow {g : List F} {m : Nat}
    (hg : g.length = 2 ^ (m + 1)) :
    compute_quotient g = some ((List.range (2 ^ m)).map (fun i =>
      g.getD (2 ^ m + i) 0 - g.getD i 0)) := by
  have hhalf : g.length / 2 = 2 ^ m := by
    rw [hg, pow_succ]
    omega
  have hp2 : (2 : Nat) ^ (m + 1) = 2 ^ m + 2 ^ m := by
    rw [pow_succ]; omega
  have hdlen : (g.drop (g.length / 2)).length = 2 ^ m := by
    rw [List.length_drop, hhalf, hg]
    omega
  have htlen : (g.take (g.length / 2)).length = 2 ^ m := by
    rw [List.length_take, hhalf, hg]
    omega
  rw [compute_quotient, element_wise_sub, if_pos (by rw [hdlen, htlen])]
  congr 1
  rw [hdlen]
  apply List.map_congr_left
  intro i hi
  have hilt : i < 2 ^ m := List.mem_range.mp hi
  rw [hhalf, getD_drop_eq g (2 ^ m) i (by omega),
    getD_take_eq g (2 ^ m) i hilt (by omega)]

/-- The affine-in-`r` split of the MLE: evaluating variable 0 at `r` equals
the remainder (the evaluation at `a`) plus `(r − a)` times the quotient
table's MLE. -/
theorem mle_split_affine {g : List F} {m : Nat} (hg : g.length = 2 ^ (m + 1))
    (r a : F) (rs : List F) (hrs : rs.length = m) :
    mleEval g (r :: rs) =
      mleEval (MultiLinearPoly.partial_evaluate g a 0) rs +
        (r - a) * mleEval ((List.range (2 ^ m)).map (fun i =>
          g.getD (2 ^ m + i) 0 - g.getD i 0)) rs := by
  rw [mleEval_step g r rs hg hrs]
  rw [mleEval, mleEval, mleEval,
    MultiLinearPoly.length_partial_evaluate_zero hg,
    MultiLinearPoly.length_partial_evaluate_zero hg, List.length_map,
    List.length_range, Finset.mul_sum, ← Finset.sum_add_distrib]
  apply Finset.sum_congr rfl
  intro i hi
  have hilt : i < 2 ^ m := Finset.mem_range.mp hi
  rw [MultiLinearPoly.getD_partial_evaluate_zero hg r hilt,
    MultiLinearPoly.getD_partial_evaluate_zero hg a hilt,
    MultiLinearPoly.getD_map_range hilt]
  have hci : (2 : Nat) ^ m + i = i + 2 ^ m := by omega
  rw [hci]
  ring

theorem length_blowGo : ∀ (t : Nat) (p : List F),
    (blowGo t p).length = 2 ^ t * p.length := by
  intro t
  induction t with
  | zero =>
    intro p
    simp [blowGo]
  | succ t ih =>
    intro p
    show (blowGo t (p ++ p)).length = _
    rw [ih (p ++ p), List.length_append, pow_succ]
    ring

theorem mleEval_explode {p : List F} {m : Nat} (hp : p.length = 2 ^ m)
    (r : F) (rs : List F) (hrs : rs.length = m) :
    mleEval (p ++ p) (r :: rs) = mleEval p rs := by
  have hlen : (p ++ p).length = 2 ^ (m + 1) := by
    rw [List.length_append, hp, pow_succ]
    omega
  rw [mleEval_step (p ++ p) r rs hlen hrs]
  have hpe : MultiLinearPoly.partial_evaluate (p ++ p) r 0 = p := by
    rw [MultiLinearPoly.partial_evaluate_zero hlen r]
    have hcl : ∀ i ∈ List.range (2 ^ m),
        (p ++ p).getD i 0 +
          ((p ++ p).getD (i + 2 ^ m) 0 - (p ++ p).getD i 0) * r =
          p.getD i 0 := by
      intro i hi
      have hilt : i < 2 ^ m := List.mem_range.mp hi
      have h1 : (p ++ p).getD i 0 = p.getD i 0 :=
        List.getD_append p p 0 i (by omega)
      have h2 : (p ++ p).getD (i + 2 ^ m) 0 = p.getD i 0 := by
        rw [List.getD_append_right p p 0 (i + 2 ^ m) (by omega), hp]
        congr 1
        omega
      rw [h1, h2]
      ring
    rw [List.map_congr_left hcl, ← hp, list_map_getD_range]
  rw [hpe]

theorem mleEval_blowGo : ∀ (t : Nat) (p : List F) (m : Nat) (rs : List F),
    p.length = 2 ^ m → rs.length = t + m →
    mleEval (blowGo t p) rs = mleEval p (rs.drop t) := by
  intro t
  induction t with
  | zero =>
    intro p m rs hp hrs
    show mleEval p rs = mleEval p (rs.drop 0)
    rw [List.drop_zero]
  | succ t ih =>
    intro p m rs hp hrs
    show mleEval (blowGo t (p ++ p)) rs = _
    have hpp : (p ++ p).length = 2 ^ (m + 1) := by
      rw [List.length_append, hp, pow_succ]
      omega
    rw [ih (p ++ p) (m + 1) rs hpp (by omega)]
    have hlt : t < rs.length := by omega
    have hdrop : rs.drop t = rs.getD t 0 :: rs.drop (t + 1) := by
      rw [List.getD_eq_getElem _ _ hlt]
      exact List.drop_eq_getElem_cons hlt
    rw [hdrop,
      mleEval_explode hp (rs.getD t 0) (rs.drop (t + 1))
        (by rw [List.length_drop]; omega)]

theorem qe_eq_mle (tau_arr q : List F) {j : Nat}
    (hq : q.length = 2 ^ (tau_arr.length - j - 1)) (hj : j < tau_arr.length) :
    ((List.range (compute_lagrange_basis tau_arr).length).map (fun i =>
      (compute_lagrange_basis tau_arr).getD i 0 *
        (blowGo (j + 1) q).getD i 0)).sum =
      mleEval q (tau_arr.drop (j + 1)) := by
  have hblen : (blowGo (j + 1) q).length = 2 ^ tau_arr.length := by
    rw [length_blowGo, hq, ← pow_add]
    congr 1
    omega
  rw [basis_sum_eq_mle tau_arr (blowGo (j + 1) q) hblen,
    mleEval_blowGo (j + 1) q (tau_arr.length - j - 1) tau_arr hq (by omega)]

/-- Invariant of the quotient loop: it always succeeds on power-of-two
tables, produces one quotient per remaining variable, ends in a singleton
remainder, and the quotient evaluations telescope the MLE of the input
table at the `τ` tail. -/
theorem kzg_loop_telescope (tau_arr vars_to_open : List F) (k : Nat)
    (htau : tau_arr.length = k) (hvars : vars_to_open.length = k) :
    ∀ (rem i : Nat) (pmv : List F), rem + i = k → pmv.length = 2 ^ (k - i) →
      ∃ qes pfin,
        kzg_proof_loop (compute_lagrange_basis tau_arr) vars_to_open rem i
            pmv = some (qes, pfin) ∧
          qes.length = rem ∧ pfin.length = 1 ∧
          mleEval pmv (tau_arr.drop i) =
            (∑ j ∈ Finset.range rem,
              qes.getD j 0 * (tau_arr.getD (i + j) 0 -
                vars_to_open.getD (i + j) 0)) + pfin.getD 0 0 := by
  intro rem
  induction rem with
  | zero =>
    intro i pmv hsum hlen
    have hik : i = k := by omega
    have h1 : pmv.length = 1 := by
      rw [hlen, show k - i = 0 from by omega, pow_zero]
    refine ⟨[], pmv, rfl, rfl, h1, ?_⟩
    have hdrop : tau_arr.drop i = [] := List.drop_eq_nil_of_le (by omega)
    rw [hdrop, PartialSumCheck.mleEval_nil h1]
    simp
  | succ rem ih =>
    intro i pmv hsum hlen
    have hik : i < k := by omega
    have hpmv : pmv.length = 2 ^ ((k - i - 1) + 1) := by
      rw [hlen]
      congr 1
      omega
    have hq : compute_quotient pmv =
        some ((List.range (2 ^ (k - i - 1))).map (fun t =>
          pmv.getD (2 ^ (k - i - 1) + t) 0 - pmv.getD t 0)) :=
      compute_quotient_pow hpmv
    have hqlen : ((List.range (2 ^ (k - i - 1))).map (fun t =>
        pmv.getD (2 ^ (k - i - 1) + t) 0 - pmv.getD t 0)).length =
        2 ^ (k - i - 1) := by simp
    have hblow : blow_up ((List.range (2 ^ (k - i - 1))).map (fun t =>
        pmv.getD (2 ^ (k - i - 1) + t) 0 - pmv.getD t 0)) (i + 1) =
        some (blowGo (i + 1) ((List.range (2 ^ (k - i - 1))).map (fun t =>
          pmv.getD (2 ^ (k - i - 1) + t) 0 - pmv.getD t 0))) := by
      rw [blow_up,
        if_pos (show isPow2 ((List.range (2 ^ (k - i - 1))).map (fun t =>
            pmv.getD (2 ^ (k - i - 1) + t) 0 - pmv.getD t 0)).length = true
          from by rw [hqlen]; exact isPow2_two_pow _)]
    have hremlen :
        (compute_remainder pmv (vars_to_open.getD i 0)).length =
          2 ^ (k - (i + 1)) := by
      rw [compute_remainder,
        MultiLinearPoly.length_partial_evaluate_zero hpmv]
      exact congrArg (fun n => 2 ^ n) (by omega)
    obtain ⟨qes, pfin, hloop, hqes, hpfin, htel⟩ :=
      ih (i + 1) (compute_remainder pmv (vars_to_open.getD i 0)) (by omega)
        hremlen
    refine ⟨((List.range (compute_lagrange_basis tau_arr).length).map
        (fun j => (compute_lagrange_basis tau_arr).getD j 0 *
          (blowGo (i + 1) ((List.range (2 ^ (k - i - 1))).map (fun t =>
            pmv.getD (2 ^ (k - i - 1) + t) 0 - pmv.getD t 0))).getD j 0)).sum
        :: qes, pfin, ?_, by simp [hqes], hpfin, ?_⟩
    · show kzg_proof_loop (compute_lagrange_basis tau_arr) vars_to_open
        (rem + 1) i pmv = _
      rw [kzg_proof_loop_succ]
      simp only [hq, hblow, hloop]
    · have hqe : ((List.range (compute_lagrange_basis tau_arr).length).map
          (fun j => (compute_lagrange_basis tau_arr).getD j 0 *
            (blowGo (i + 1) ((List.range (2 ^ (k - i - 1))).map (fun t =>
              pmv.getD (2 ^ (k - i - 1) + t) 0 -
                pmv.getD t 0))).getD j 0)).sum =
          mleEval ((List.range (2 ^ (k - i - 1))).map (fun t =>
            pmv.getD (2 ^ (k - i - 1) + t) 0 - pmv.getD t 0))
            (tau_arr.drop (i + 1)) :=
        qe_eq_mle tau_arr _ (by rw [hqlen, htau]) (by omega)
      have hdropi : tau_arr.drop i =
          tau_arr.getD i 0 :: tau_arr.drop (i + 1) := by
        rw [List.getD_eq_getElem _ _ (by omega)]
        exact List.drop_eq_getElem_cons (by omega)
      rw [hdropi,
        mle_split_affine hpmv (tau_arr.getD i 0) (vars_to_open.getD i 0)
          (tau_arr.drop (i + 1)) (by rw [List.length_drop]; omega)]
      show mleEval (compute_remainder pmv (vars_to_open.getD i 0))
          (tau_arr.drop (i + 1)) + _ = _
      rw [htel, Finset.sum_range_succ']
      simp only [List.getD_cons_succ, List.getD_cons_zero]
      rw [hqe]
      have hsums : ∑ j ∈ Finset.range rem,
          qes.getD j 0 * (tau_arr.getD (i + (j + 1)) 0 -
            vars_to_open.getD (i + (j + 1)) 0) =
          ∑ j ∈ Finset.range rem,
            qes.getD j 0 * (tau_arr.getD (i + 1 + j) 0 -
              vars_to_open.getD (i + 1 + j) 0) :=
        Finset.sum_congr rfl (fun j hj => by
          rw [show i + (j + 1) = i + 1 + j from by omega])
      rw [hsums, mul_comm (tau_arr.getD i 0 - vars_to_open.getD i 0),
        add_right_comm]
      simp only [Nat.add_zero]

theorem kzg_verify_iff (prf : KZGProof F) (tau_arr vars_to_open : List F) :
    (KZG.verify prf (initializeSetup tau_arr).g2_arr vars_to_open = true) ↔
      (∑ i ∈ Finset.range tau_arr.length,
        prf.quotient_evals.getD i 0 *
          (tau_arr.getD i 0 - vars_to_open.getD i 0)) =
        prf.commitment - prf.poly_opened := by
  rw [KZG.verify, beq_iff_eq]
  have hlen : (initializeSetup tau_arr).g2_arr.length = tau_arr.length := by
    simp [initializeSetup]
  rw [hlen, PartialSumCheck.sum_map_list_range]
  have hpt : ∀ i ∈ Finset.range tau_arr.length,
      prf.quotient_evals.getD i 0 *
        ((initializeSetup tau_arr).g2_arr.getD i 0 -
          1 * vars_to_open.getD i 0) =
      prf.quotient_evals.getD i 0 *
        (tau_arr.getD i 0 - vars_to_open.getD i 0) := by
    intro i hi
    have hg2 : (initializeSetup tau_arr).g2_arr.getD i 0 =
        1 * tau_arr.getD i 0 :=
      getD_map_of_lt _ _ (Finset.mem_range.mp hi) 0 0
    rw [hg2, one_mul, one_mul]
  rw [Finset.sum_congr rfl hpt]
  simp only [one_mul, mul_one]

/-- C8.  KZG open/verify round trip: for every multilinear table of `2^k`
entries, trusted setup at a `k`-coordinate `τ`, and opening point of `k`
coordinates, if `proof` succeeds then its opened value is the table's MLE
at the point, and (for the honest commitment and quotient evaluations)
`verify` accepts an opened value `vv` if and only if `vv` equals that MLE
value; moreover altering any single quotient element by a nonzero `δ`
makes `verify` reject whenever `τ` and the opening point differ in that
coordinate (as they do throughout E6). -/
theorem c8_kzg_round_trip (k : Nat) (tau_arr poly point : List F)
    (htau : tau_arr.length = k) (hpoly : poly.length = 2 ^ k)
    (hpoint : point.length = k) (prf : KZGProof F)
    (hproof : KZG.proof poly (initializeSetup tau_arr).g1_arr point =
      some prf) :
    prf.poly_opened = mleEval poly point ∧
    (∀ vv : F, (KZG.verify ⟨prf.commitment, prf.quotient_evals, vv⟩
        (initializeSetup tau_arr).g2_arr point = true ↔
      vv = mleEval poly point)) ∧
    ∀ (idx : Nat) (d : F), idx < k → d ≠ 0 →
      tau_arr.getD idx 0 ≠ point.getD idx 0 →
      KZG.verify ⟨prf.commitment,
          prf.quotient_evals.set idx (prf.quotient_evals.getD idx 0 + d),
          prf.poly_opened⟩ (initializeSetup tau_arr).g2_arr point =
        false := by
  have hg1 : (initializeSetup tau_arr).g1_arr =
      compute_lagrange_basis tau_arr := by
    show (compute_lagrange_basis tau_arr).map (fun val => 1 * val) = _
    rw [show (fun val : F => 1 * val) = id from funext fun x => one_mul x,
      List.map_id]
  have hlen2 : poly.length = 2 ^ point.length := by rw [hpoint, hpoly]
  have hpt2 : poly.length = 2 ^ tau_arr.length := by rw [htau, hpoly]
  have hv : MultiLinearPoly.evaluate poly point =
      some [mleEval poly point] :=
    c4_evaluate_agrees_with_mle poly point hlen2
  have hpmv : compute_poly_minus_v poly point =
      some (poly.map (fun val => val - mleEval poly point)) := by
    simp only [compute_poly_minus_v, hv, List.getD_cons_zero]
  obtain ⟨qes, pfin, hloop, hqes, hpfin, htel⟩ :=
    kzg_loop_telescope tau_arr point k htau hpoint k 0
      (poly.map (fun val => val - mleEval poly point)) (by omega)
      (by rw [List.length_map, hpoly]
          exact congrArg (fun n => 2 ^ n) (by omega))
  have hKZG : KZG.proof poly (initializeSetup tau_arr).g1_arr point =
      (if pfin.getD 0 0 = 0 then
        some ⟨compute_commitment poly (initializeSetup tau_arr).g1_arr, qes,
          [mleEval poly point].getD 0 0⟩
      else none) := by
    rw [hg1]
    simp only [KZG.proof, hv, hpmv, hpoint, hloop]
  rw [hKZG] at hproof
  by_cases hz : pfin.getD 0 0 = 0
  · rw [if_pos hz] at hproof
    have hp2 : (⟨compute_commitment poly (initializeSetup tau_arr).g1_arr,
        qes, [mleEval poly point].getD 0 0⟩ : KZGProof F) = prf :=
      Option.some.inj hproof
    subst hp2
    have hvopen : ([mleEval poly point] : List F).getD 0 0 =
        mleEval poly point := rfl
    have hC : compute_commitment poly (initializeSetup tau_arr).g1_arr =
        mleEval poly tau_arr := by
      rw [hg1, compute_commitment, basis_sum_eq_mle tau_arr poly hpt2]
    have hsum0 : ∑ j ∈ Finset.range k,
        qes.getD j 0 * (tau_arr.getD (0 + j) 0 - point.getD (0 + j) 0) =
        ∑ j ∈ Finset.range tau_arr.length,
          qes.getD j 0 * (tau_arr.getD j 0 - point.getD j 0) := by
      rw [htau]
      exact Finset.sum_congr rfl (fun j hj => by rw [Nat.zero_add])
    rw [List.drop_zero,
      mleEval_map_sub_const poly tau_arr (mleEval poly point) hpt2, hz,
      add_zero, hsum0] at htel
    refine ⟨hvopen, ?_, ?_⟩
    · intro vv
      rw [kzg_verify_iff]
      show _ ↔ vv = mleEval poly point
      show (∑ i ∈ Finset.range tau_arr.length,
          qes.getD i 0 * (tau_arr.getD i 0 - point.getD i 0)) =
          compute_commitment poly (initializeSetup tau_arr).g1_arr - vv ↔ _
      rw [← htel, hC, sub_right_inj, eq_comm]
    · intro idx d hidx hd hne
      rw [Bool.eq_false_iff]
      intro hacc
      rw [kzg_verify_iff] at hacc
      dsimp only at hacc
      have hqlen2 : idx < qes.length := by omega
      have hset : ∀ i, i < qes.length →
          (qes.set idx (qes.getD idx 0 + d)).getD i 0 =
            if i = idx then qes.getD idx 0 + d else qes.getD i 0 := by
        intro i hi
        by_cases hcase : i = idx
        · subst hcase
          rw [if_pos rfl, List.getD_eq_getElem _ _ (by simpa using hi),
            List.getElem_set_self (by simpa using hi)]
        · rw [if_neg hcase, List.getD_eq_getElem _ _ (by simpa using hi),
            List.getD_eq_getElem _ _ hi, List.getElem_set_ne]
          omega
      have hsplit2 : ∀ i ∈ Finset.range tau_arr.length,
          (qes.set idx (qes.getD idx 0 + d)).getD i 0 *
            (tau_arr.getD i 0 - point.getD i 0) =
            qes.getD i 0 * (tau_arr.getD i 0 - point.getD i 0) +
              (if i = idx then d * (tau_arr.getD i 0 - point.getD i 0)
               else 0) := by
        intro i hi
        rw [hset i (by have := Finset.mem_range.mp hi; omega)]
        by_cases hcase : i = idx
        · subst hcase
          rw [if_pos rfl, if_pos rfl]
          ring
        · rw [if_neg hcase, if_neg hcase]
          ring
      rw [Finset.sum_congr rfl hsplit2, Finset.sum_add_distrib,
        Finset.sum_ite_eq' (Finset.range tau_arr.length) idx
          (fun i => d * (tau_arr.getD i 0 - point.getD i 0)),
        if_pos (Finset.mem_range.mpr (by omega)), hC, hvopen, ← htel]
        at hacc
      exact (mul_ne_zero hd (sub_ne_zero.mpr hne))
        (add_right_eq_self.mp hacc)

  · rw [if_neg hz] at hproof
    exact absurd hproof (by simp)

/-- C9.  `kzg_protocol::verify` iterates only over `encrypted_taus` and
never compares the quotient count with the variable count: appending
arbitrary extra quotient elements to a proof whose quotient list already
covers the taus leaves the verdict unchanged (no SetupInvalid-style
rejection). -/
theorem c9_kzg_quotient_count (prf : KZGProof F) (extra : List F)
    (encrypted_taus vars_to_open : List F)
    (hlen : encrypted_taus.length ≤ prf.quotient_evals.length) :
    KZG.verify ⟨prf.commitment, prf.quotient_evals ++ extra,
        prf.poly_opened⟩ encrypted_taus vars_to_open =
      KZG.verify prf encrypted_taus vars_to_open := by
  have hmap : (List.range encrypted_taus.length).map (fun i =>
      (prf.quotient_evals ++ extra).getD i 0 *
        (encrypted_taus.getD i 0 - 1 * vars_to_open.getD i 0)) =
      (List.range encrypted_taus.length).map (fun i =>
        prf.quotient_evals.getD i 0 *
          (encrypted_taus.getD i 0 - 1 * vars_to_open.getD i 0)) := by
    apply List.map_congr_left
    intro i hi
    have hilt : i < encrypted_taus.length := List.mem_range.mp hi
    rw [List.getD_append prf.quotient_evals extra 0 i (by omega)]
  rw [KZG.verify, KZG.verify, hmap]

/-- The honest E6 proof object over ZMod 10007: table (0,4,0,4,0,4,3,7),
setup τ = (5,2,3), opening point (6,4,0). -/
def prfE6 : KZGProof (ZMod 10007) :=
  (KZG.proof [0, 4, 0, 4, 0, 4, 3, 7]
    (initializeSetup [5, 2, 3]).g1_arr [6, 4, 0]).getD ⟨0, [], 0⟩

/-- Witness for C9: the E6 proof has 3 quotients; appending a junk fourth
quotient (length 4 ≠ 3 variables) leaves verify accepting. -/
theorem c9_kzg_quotient_count_witness :
    ((initializeSetup ([5, 2, 3] : List (ZMod 10007))).g2_arr.length ≤
      prfE6.quotient_evals.length) ∧
    KZG.verify ⟨prfE6.commitment, prfE6.quotient_evals ++ [1],
        prfE6.poly_opened⟩ (initializeSetup [5, 2, 3]).g2_arr [6, 4, 0] =
      KZG.verify prfE6 (initializeSetup [5, 2, 3]).g2_arr [6, 4, 0] ∧
    KZG.verify prfE6 (initializeSetup [5, 2, 3]).g2_arr [6, 4, 0] = true ∧
    (prfE6.quotient_evals ++ [1]).length ≠
      (initializeSetup ([5, 2, 3] : List (ZMod 10007))).g2_arr.length :=
  ⟨by decide,
    c9_kzg_quotient_count prfE6 [1] (initializeSetup [5, 2, 3]).g2_arr
      [6, 4, 0] (by decide),
    by decide, by decide⟩

/-- Witness for C8 at the E6 instance over ZMod 10007: the proof succeeds,
opens to the MLE value, and verification of an opened value accepts
exactly at that value. -/
theorem c8_kzg_round_trip_witness :
    (([5, 2, 3] : List (ZMod 10007)).length = 3 ∧
      ([0, 4, 0, 4, 0, 4, 3, 7] : List (ZMod 10007)).length = 2 ^ 3 ∧
      ([6, 4, 0] : List (ZMod 10007)).length = 3) ∧
    ∃ prf : KZGProof (ZMod 10007),
      KZG.proof [0, 4, 0, 4, 0, 4, 3, 7]
          (initializeSetup [5, 2, 3]).g1_arr [6, 4, 0] = some prf ∧
      prf.poly_opened = mleEval
        ([0, 4, 0, 4, 0, 4, 3, 7] : List (ZMod 10007)) [6, 4, 0] ∧
      (∀ vv, (KZG.verify ⟨prf.commitment, prf.quotient_evals, vv⟩
          (initializeSetup [5, 2, 3]).g2_arr [6, 4, 0] = true ↔
        vv = mleEval ([0, 4, 0, 4, 0, 4, 3, 7] : List (ZMod 10007))
          [6, 4, 0])) ∧
      ∀ (idx : Nat) (d : ZMod 10007), idx < 3 → d ≠ 0 →
        ([5, 2, 3] : List (ZMod 10007)).getD idx 0 ≠
          ([6, 4, 0] : List (ZMod 10007)).getD idx 0 →
        KZG.verify ⟨prf.commitment,
            prf.quotient_evals.set idx (prf.quotient_evals.getD idx 0 + d),
            prf.poly_opened⟩ (initializeSetup [5, 2, 3]).g2_arr [6, 4, 0] =
          false :=
  ⟨⟨by decide, by decide, by decide⟩,
    (KZG.proof [0, 4, 0, 4, 0, 4, 3, 7]
        (initializeSetup [5, 2, 3]).g1_arr [6, 4, 0]).get (by decide),
    (Option.some_get (by decide)).symm,
    c8_kzg_round_trip 3 [5, 2, 3] [0, 4, 0, 4, 0, 4, 3, 7] [6, 4, 0]
      (by decide) (by decide) (by decide) _
      (Option.some_get (by decide)).symm⟩

end KZG

end ZK
